import Mathlib

/-!
Verification development for the ReportGenX document composition engine.

The Python sources are shallowly embedded:
* strings are `List Char` (`Str`), with substring containment modelling the
  Python `in` operator and `strReplace` modelling `str.replace`;
* the python-docx document object model is embedded as explicit structures
  (`Para`, `Run`, `Cell`, `Table`, `Doc`);
* the zip-level merger (`report_generator/core/document_merger.py` and
  `report_generator/merge_docx.py`) is embedded over an in-memory model of
  one OOXML package (body blocks, relationship list, media file names).
-/

namespace ReportGenX

/-- Python strings are embedded as lists of characters. -/
abbrev Str := List Char

/-- Convert a Lean string literal to the embedded representation. -/
def strOf (s : String) : Str := s.data

/-- Python `pat in hay` : substring containment (empty pattern is contained
in every string, as in Python). -/
def strContains (hay pat : Str) : Bool := decide (pat <:+: hay)

/-- Worker for `strReplace`:  the fuel, seeded with the string length,
dominates the length of the remaining string, so the zero-fuel case is
unreachable. -/
def strReplaceGo (pat rep : Str) : Nat → Str → Str
  | _, [] => []
  | 0, s => s
  | fuel + 1, c :: rest =>
    if pat ≠ [] ∧ pat.isPrefixOf (c :: rest) then
      rep ++ strReplaceGo pat rep fuel ((c :: rest).drop pat.length)
    else
      c :: strReplaceGo pat rep fuel rest

/-- Python `str.replace`: replace every non-overlapping occurrence of `pat`
left to right.  (For the empty pattern Python inserts `rep` at every
position; the engines only ever call this with non-empty `#token#`
patterns, and for an empty pattern this model returns the string
unchanged.) -/
def strReplace (pat rep s : Str) : Str := strReplaceGo pat rep s.length s

/-- Worker for `strSplit`: accumulates the current chunk in reverse; the
fuel, seeded with the string length, makes the recursion structural. -/
def strSplitGo (sep : Str) : Nat → Str → Str → List Str
  | _, cur, [] => [cur.reverse]
  | 0, cur, s => [cur.reverse ++ s]
  | fuel + 1, cur, c :: rest =>
    if sep ≠ [] ∧ sep.isPrefixOf (c :: rest) then
      cur.reverse :: strSplitGo sep fuel [] ((c :: rest).drop sep.length)
    else
      strSplitGo sep fuel (c :: cur) rest

/-- Python `s.split(sep)` for a non-empty separator. -/
def strSplit (s sep : Str) : List Str := strSplitGo sep s.length [] s

/-- The whitespace set of Python `str.strip()`. -/
def isPySpace (c : Char) : Bool :=
  c = ' ' || c = '\t' || c = '\n' || c = '\x0b' || c = '\x0c' || c = '\r'

/-- Python `str.strip()`. -/
def strStrip (s : Str) : Str :=
  ((s.dropWhile isPySpace).reverse.dropWhile isPySpace).reverse

/-- Python truthiness of a string: non-empty. -/
def strTruthy (s : Str) : Bool := !s.isEmpty

/-- `os.path.basename` for POSIX-style paths: everything after the last
slash. -/
def basename (s : Str) : Str := (s.reverse.takeWhile (fun c => c ≠ '/')).reverse

/-! ### Decimal rendering and parsing of relationship identifiers

The merger builds new relationship IDs with `f'rId{max_id}'` and reads the
numeric suffix of existing IDs with `int(rel_id[3:])` guarded by
`startswith('rId')` and `try/except ValueError`.  Decimal digits are
modelled through `Nat.digits`; `int` is modelled on canonical digit
strings (Python's extra leniency for signs/whitespace/underscores is not
exercised by identifiers the code itself produces). -/

/-- The character for a single decimal digit. -/
def digitChar (d : Nat) : Char := Char.ofNat (48 + d)

/-- Canonical decimal rendering of a natural number (Python `str(n)`). -/
def natToStr (n : Nat) : Str :=
  if n = 0 then ['0'] else ((Nat.digits 10 n).map digitChar).reverse

/-- The relationship ID string `rId{n}`. -/
def rIdStr (n : Nat) : Str := 'r' :: 'I' :: 'd' :: natToStr n

/-- Is `c` an ASCII decimal digit? -/
def isDigitCh (c : Char) : Bool := 48 ≤ c.toNat && c.toNat ≤ 57

/-- Numeric value of a digit string (most significant first). -/
def digitsVal (s : Str) : Nat := s.foldl (fun a c => 10 * a + (c.toNat - 48)) 0

/-- Parse the numeric suffix of a relationship ID: `some n` iff the string
is `rId` followed by a non-empty run of decimal digits (the
`startswith('rId')` / `int(rel_id[3:])` check of
`_get_max_relationship_id`). -/
def parseRIdNum : Str → Option Nat
  | 'r' :: 'I' :: 'd' :: rest =>
    if rest ≠ [] ∧ rest.all isDigitCh then some (digitsVal rest) else none
  | _ => none

/-! ### python-docx document object model

Embedding of the parts of python-docx that `backend/core/document_editor.py`
and `backend/core/document_image_processor.py` touch.  A run carries its
`w:t` text plus the formatting the editor sets (bold, colour, size), the
field-character payload used by the TOC injector, and an optional embedded
picture (path and width in inches, as a rational).  A paragraph carries its
runs and the paragraph properties the code reads or writes: alignment
(`w:jc`), spacing before/after, first-line indent, and an opaque residue
`props` for everything the code copies wholesale with `deepcopy`. -/

/-- Paragraph alignment values used by the code. -/
inductive Align where
  | left
  | center
deriving DecidableEq, Repr

structure Run where
  text : Str := []
  bold : Bool := false
  colorRgb : Option Nat := none
  szHalf : Option Nat := none
  fldCharType : Option Str := none
  instrText : Option Str := none
  pic : Option (Str × ℚ) := none
deriving DecidableEq, Repr

/-- `paragraph.add_run(s)`: a run with default formatting. -/
def plainRun (s : Str) : Run := { text := s }

structure Para where
  runs : List Run := []
  jc : Option Align := none
  spacing : Option (Nat × Nat) := none
  firstLine : Option Nat := none
  props : Nat := 0
deriving DecidableEq, Repr

/-- `paragraph.text`: concatenation of the run texts. -/
def Para.text (p : Para) : Str := (p.runs.map Run.text).flatten

/-- The `paragraph.text` setter: remove all runs, add one default run. -/
def Para.setText (p : Para) (s : Str) : Para := { p with runs := [plainRun s] }

/-- `DocumentEditor.clear_paragraph_indent`: zero the first-line indent. -/
def clearParagraphIndent (p : Para) : Para := { p with firstLine := some 0 }

structure Cell where
  paras : List Para := []
  widthEmu : Option Nat := none
deriving DecidableEq, Repr

/-- `cell.text`: paragraph texts joined with newlines. -/
def cellText (c : Cell) : Str := List.intercalate ['\n'] (c.paras.map Para.text)

/-- The `cell.text` setter: replace the whole cell content by a single
paragraph containing one run. -/
def Cell.setText (c : Cell) (s : Str) : Cell :=
  { c with paras := [{ runs := [plainRun s] }] }

structure Table where
  rows : List (List Cell) := []
deriving DecidableEq, Repr

structure Section where
  headerParas : List Para := []
  headerTables : List Table := []
deriving DecidableEq, Repr

structure Doc where
  body : List Para := []
  tables : List Table := []
  sections : List Section := []
  updateFields : Bool := false
deriving DecidableEq, Repr

/-- A freshly created empty paragraph (`OxmlElement('w:p')` /
`cell.add_paragraph()`). -/
def newPara : Para := {}

/-- Placeholder cell for a lookup that cannot fail. -/
def emptyCell : Cell := {}

/-! ### ReplacementEngine (`document_editor.py`) -/

/-- `RISK_LEVEL_COLORS`: risk level label to RGB colour. -/
def riskLevelColors : List (Str × Nat) :=
  [ (strOf "无风险", 0x198754), (strOf "信息性", 0x17a2b8), (strOf "低危", 0x28a745),
    (strOf "中危", 0xfd7e14), (strOf "高危", 0xdc3545), (strOf "超危", 0x8b0000),
    (strOf "严重", 0x8b0000), (strOf "低风险", 0x28a745), (strOf "中风险", 0xfd7e14),
    (strOf "高风险", 0xdc3545) ]

/-- `risk_level_value in RISK_LEVEL_COLORS` / colour lookup. -/
def riskColorLookup (v : Str) : Option Nat := riskLevelColors.lookup v

/-- The reserved risk-level token `#overall_risk_level#`. -/
def riskLevelKey : Str := strOf "#overall_risk_level#"

/-- Interleaving step of `_replace_with_color`: for each split part, a plain
run for a non-empty part, and the coloured bold value run between parts. -/
def buildColoredParts (value : Str) (color : Nat) : List Str → List Run
  | [] => []
  | [part] => if strTruthy part then [plainRun part] else []
  | part :: rest =>
    (if strTruthy part then [plainRun part] else []) ++
      ({ text := value, bold := true, colorRgb := some color } : Run) ::
        buildColoredParts value color rest

/-- `DocumentEditor._replace_with_color`: clear all run texts, split the
full paragraph text at the placeholder, and rebuild with the replacement
value as a coloured bold run. -/
def replaceWithColor (p : Para) (placeholder value : Str) (color : Nat) : Para :=
  if !(strContains p.text placeholder) then p
  else
    { p with runs :=
        p.runs.map (fun r => { r with text := [] }) ++
          buildColoredParts value color (strSplit p.text placeholder) }

/-- `DocumentEditor._insert_paragraphs_after`: the first line replaces the
original paragraph text; every further line becomes a cloned sibling
paragraph (same paragraph properties, fresh single run).  The source
indexes `lines[0]`, so the empty case is unreachable for its callers. -/
def insertParagraphsAfter (p : Para) (lines : List Str) : List Para :=
  match lines with
  | [] => [p]
  | l0 :: rest =>
    p.setText l0 :: rest.map (fun l => p.setText l)

/-- The inner replacement loop with the `is_modified` flag. -/
def substFold (reps : List (Str × Str)) (t : Str) : Str × Bool :=
  reps.foldl
    (fun st kv => if strContains st.1 kv.1 then (strReplace kv.1 kv.2 st.1, true) else st)
    (t, false)

/-- The replacement loop of the multi-line branch (no flag). -/
def substAll (reps : List (Str × Str)) (t : Str) : Str :=
  reps.foldl (fun t kv => if strContains t kv.1 then strReplace kv.1 kv.2 t else t) t

/-- The non-blank lines of a multi-line replacement result
(`[line for line in full_text.split('\n') if line.strip()]`). -/
def multilineLines (s : Str) : List Str :=
  (strSplit s ['\n']).filter (fun l => strTruthy (strStrip l))

/-- Body-paragraph pass of `replace_report_text` (lines 111–156): cheap `#`
exit, the colour branch (whose plain-text follow-up substitutes into a
local string that is then discarded), the multi-line explosion, and the
in-place substitution. -/
def processParaBody (reps : List (Str × Str)) (enableColor : Bool) (riskVal : Str)
    (p : Para) : List Para :=
  if !(strContains p.text ['#']) then [p]
  else
    let fullText := p.text
    if enableColor && strContains fullText riskLevelKey && (riskColorLookup riskVal).isSome then
      -- the remaining tokens are substituted into the local `full_text` only,
      -- which the source never writes back before `continue`
      [replaceWithColor p riskLevelKey riskVal ((riskColorLookup riskVal).getD 0)]
    else
      let needsMultiline :=
        reps.any (fun kv => strContains fullText kv.1 && strContains kv.2 ['\n'])
      if needsMultiline then
        let replaced := substAll reps fullText
        let lines := multilineLines replaced
        if lines.length > 1 then insertParagraphsAfter p lines
        else [p.setText replaced]
      else
        let res := substFold reps fullText
        if res.2 then [p.setText res.1] else [p]

/-- Header-paragraph pass (lines 162–172): `#` exit plus plain substitution. -/
def processParaSimple (reps : List (Str × Str)) (p : Para) : Para :=
  if !(strContains p.text ['#']) then p
  else
    let res := substFold reps p.text
    if res.2 then p.setText res.1 else p

/-- Header-table cell-paragraph pass (lines 180–188): plain substitution,
no `#` guard on the paragraph (the guard is at cell level). -/
def processParaHeaderCell (reps : List (Str × Str)) (p : Para) : Para :=
  let res := substFold reps p.text
  if res.2 then p.setText res.1 else p

/-- Body-table cell-paragraph pass (lines 197–218): colour branch (again
with the discarded local follow-up) or plain substitution. -/
def processParaCell (reps : List (Str × Str)) (enableColor : Bool) (riskVal : Str)
    (p : Para) : Para :=
  if enableColor && strContains p.text riskLevelKey && (riskColorLookup riskVal).isSome then
    replaceWithColor p riskLevelKey riskVal ((riskColorLookup riskVal).getD 0)
  else
    let res := substFold reps p.text
    if res.2 then p.setText res.1 else p

/-- Cell-level guard `if not cell.text or '#' not in cell.text`. -/
def cellSkipped (c : Cell) : Bool :=
  !(strTruthy (cellText c)) || !(strContains (cellText c) ['#'])

def processCellBody (reps : List (Str × Str)) (enableColor : Bool) (riskVal : Str)
    (c : Cell) : Cell :=
  if cellSkipped c then c
  else { c with paras := c.paras.map (processParaCell reps enableColor riskVal) }

def processCellHeader (reps : List (Str × Str)) (c : Cell) : Cell :=
  if cellSkipped c then c
  else { c with paras := c.paras.map (processParaHeaderCell reps) }

def processTableBody (reps : List (Str × Str)) (enableColor : Bool) (riskVal : Str)
    (t : Table) : Table :=
  { rows := t.rows.map (fun row => row.map (processCellBody reps enableColor riskVal)) }

def processTableHeader (reps : List (Str × Str)) (t : Table) : Table :=
  { rows := t.rows.map (fun row => row.map (processCellHeader reps)) }

def processSection (reps : List (Str × Str)) (s : Section) : Section :=
  { headerParas := s.headerParas.map (processParaSimple reps),
    headerTables := s.headerTables.map (processTableHeader reps) }

/-- `DocumentEditor.replace_report_text(replacements, enable_risk_color)`. -/
def replaceReportText (doc : Doc) (reps : List (Str × Str)) (enableColor : Bool) : Doc :=
  let riskVal := (List.lookup riskLevelKey reps).getD []
  { doc with
    body := doc.body.flatMap (processParaBody reps enableColor riskVal),
    sections := doc.sections.map (processSection reps),
    tables := doc.tables.map (processTableBody reps enableColor riskVal) }

/-! ### TocInjector (`insert_toc_at_placeholder`) -/

/-- `DocumentEditor._create_toc_title_paragraph`: centred, bold, 16 pt
title, 12 pt spacing before and after. -/
def tocTitlePara (title : Str) : Para :=
  { runs := [{ text := title, bold := true, szHalf := some 32 }],
    jc := some Align.center,
    spacing := some (240, 240) }

/-- `DocumentEditor._create_toc_field_paragraph`: field begin, the TOC
instruction, field separator, a grey placeholder run, field end. -/
def tocFieldPara : Para :=
  { runs :=
      [ { fldCharType := some (strOf "begin") },
        { instrText := some (strOf " TOC \\o \"1-3\" \\h \\z \\u ") },
        { fldCharType := some (strOf "separate") },
        { text := strOf "请更新目录：右键点击此处 → 更新域，或按 Ctrl+A 后按 F9",
          colorRgb := some 0x808080 },
        { fldCharType := some (strOf "end") } ] }

/-- `DocumentEditor.insert_toc_at_placeholder`: find the first body
paragraph whose text CONTAINS the placeholder (`if placeholder in
para.text`), insert the title and field paragraphs there, remove the
placeholder paragraph, and set the update-fields-on-open flag.  Returns
`false` without mutation when no paragraph contains the placeholder. -/
def insertTocAtPlaceholder (doc : Doc) (placeholder title : Str) : Bool × Doc :=
  match doc.body.findIdx? (fun p => strContains p.text placeholder) with
  | none => (false, doc)
  | some i =>
    (true,
      { doc with
        body := doc.body.take i ++ [tocTitlePara title, tocFieldPara] ++ doc.body.drop (i + 1),
        updateFields := true })

/-- All text-bearing paragraphs `replace_report_text` visits: body
paragraphs, header paragraphs, header-table cell paragraphs, and
body-table cell paragraphs. -/
def tableParas (t : Table) : List Para := t.rows.flatMap (fun row => row.flatMap Cell.paras)

def Doc.allParas (doc : Doc) : List Para :=
  doc.body ++
    doc.sections.flatMap (fun s => s.headerParas ++ s.headerTables.flatMap tableParas) ++
    doc.tables.flatMap tableParas

/-! ### ImageEmbedder (`document_image_processor.py`)

The file-system and image-decoding effects are abstracted into an
environment: whether a path exists, whether it is absolute, the pixel
dimensions `PIL.Image.open` reports (or `none` when it raises), whether
`run.add_picture` raises on the path, and the exception text it raises
with.  `Except Str` carries a raised Python exception. -/

structure ImgEnv where
  cwd : Str
  isAbs : Str → Bool
  fileExists : Str → Bool
  decodeDims : Str → Option (Nat × Nat)
  addPicFails : Str → Bool
  errStr : Str → Str

/-- `os.path.join` for POSIX paths (the only shape the code builds). -/
def joinPath (a b : Str) : Str := a ++ '/' :: b

/-- `DocumentImageProcessor._resolve_path`. -/
def resolvePath (env : ImgEnv) (p : Str) : Str :=
  if !(strTruthy p) then p
  else if env.isAbs p then p
  else if env.fileExists (joinPath env.cwd p) then joinPath env.cwd p else p

/-- A run holding an embedded picture at a width in inches. -/
def picRun (path : Str) (w : ℚ) : Run := { pic := some (path, w) }

/-- Width chosen by `_insert_image_run`: scale down to `maxW` when the
pixel width exceeds `maxW * 96`, else natural size at 96 px/inch. -/
def picWidth (maxW : ℚ) (w : Nat) : ℚ :=
  if (w : ℚ) > maxW * 96 then maxW else (w : ℚ) / 96

/-- `PIL.Image.open` + `.size`: dimensions, or a raised decode error. -/
def pilOpenE (env : ImgEnv) (p : Str) : Except Str (Nat × Nat) :=
  match env.decodeDims p with
  | some d => Except.ok d
  | none => Except.error (strOf "cannot identify image file")

/-- `run.add_picture(path, width)`: the picture run, or a raised error. -/
def addPictureE (env : ImgEnv) (p : Str) (w : ℚ) : Except Str Run :=
  if env.addPicFails p then Except.error (env.errStr p) else Except.ok (picRun p w)

/-- Python `try/except`. -/
def tryCatch {α : Type} (x : Except Str α) (handler : Str → Except Str α) : Except Str α :=
  match x with
  | Except.ok a => Except.ok a
  | Except.error e => handler e

/-- The literal degradation text for a missing image
(`f"[图片不存在: {os.path.basename(img_path)}]"`). -/
def imgMissingMsg (imgPath : Str) : Str :=
  strOf "[图片不存在: " ++ basename imgPath ++ strOf "]"

/-- The literal error text for a failed insertion
(`f"[图片插入错误: {str(insert_err)}]"`). -/
def imgErrorMsg (e : Str) : Str := strOf "[图片插入错误: " ++ e ++ strOf "]"

/-- `DocumentImageProcessor._insert_image_run(paragraph, img_path,
max_width_inches)`: on a missing resolved path append the literal missing
text; otherwise append an empty run (`paragraph.add_run()`), try to size
and attach the picture, on any exception retry at `maxW`, and on a second
exception leave the empty run and append the literal error text. -/
def insertImageRunE (env : ImgEnv) (runs : List Run) (imgPath : Str) (maxW : ℚ) :
    Except Str (List Run) :=
  let resolved := resolvePath env imgPath
  if !(strTruthy resolved) || !(env.fileExists resolved) then
    Except.ok (runs ++ [plainRun (imgMissingMsg imgPath)])
  else
    tryCatch
      (match pilOpenE env resolved with
        | Except.error e => Except.error e
        | Except.ok wh =>
          match addPictureE env resolved (picWidth maxW wh.1) with
          | Except.error e => Except.error e
          | Except.ok r => Except.ok (runs ++ [r]))
      (fun _ =>
        tryCatch
          (match addPictureE env resolved maxW with
            | Except.error e => Except.error e
            | Except.ok r => Except.ok (runs ++ [r]))
          (fun e => Except.ok (runs ++ [({} : Run), plainRun (imgErrorMsg e)])))

/-- Total wrapper: `_insert_image_run` never raises (see
`c6_theorem`), so the error branch here is unreachable. -/
def insertImageRunT (env : ImgEnv) (runs : List Run) (imgPath : Str) (maxW : ℚ) : List Run :=
  match insertImageRunE env runs imgPath maxW with
  | Except.ok rs => rs
  | Except.error _ => runs

/-- One entry of an image list: Python `str` items become `{path, desc :=
""}`, dict items carry `path` and `description`/`desc`. -/
structure ImgItem where
  path : Str := []
  desc : Str := []
deriving DecidableEq, Repr

/-- A caption paragraph: left-aligned, indent cleared. -/
def descPara (desc : Str) : Para :=
  clearParagraphIndent { runs := [plainRun desc], jc := some Align.left }

/-- A picture paragraph: centred, indent cleared. -/
def imgParaOfRuns (rs : List Run) : Para :=
  clearParagraphIndent { runs := rs, jc := some Align.center }

def imgPara (env : ImgEnv) (imgPath : Str) (maxW : ℚ) : Para :=
  imgParaOfRuns (insertImageRunT env [] imgPath maxW)

/-- Paragraphs produced for one image-list item: optional caption then
optional picture. -/
def itemParas (env : ImgEnv) (maxW : ℚ) (it : ImgItem) : List Para :=
  (if strTruthy it.desc then [descPara it.desc] else []) ++
    (if strTruthy it.path then [imgPara env it.path maxW] else [])

/-- `DocumentImageProcessor.insert_images_into_cell`: remove every
paragraph, add a fresh start paragraph, append caption/picture paragraphs
per item, and drop the leading empty paragraph when content follows. -/
def insertImagesIntoCell (env : ImgEnv) (c : Cell) (items : List ImgItem) (maxW : ℚ) : Cell :=
  let paras : List Para := [newPara] ++ items.flatMap (itemParas env maxW)
  let paras :=
    match paras with
    | p0 :: rest =>
      if !(strTruthy p0.text) && p0.runs.isEmpty && !rest.isEmpty then rest else p0 :: rest
    | [] => paras
  { c with paras := paras }

/-- Clearing the placeholder text paragraph-wise inside a matching cell
(`para.text = para.text.replace(placeholder, '')`). -/
def clearPhPara (ph : Str) (p : Para) : Para :=
  if strContains p.text ph then p.setText (strReplace ph [] p.text) else p

/-- Cell pass of `replace_placeholder_with_images`. -/
def replaceImgCell (env : ImgEnv) (ph : Str) (items : List ImgItem) (c : Cell) : Cell :=
  if strContains (cellText c) ph then
    let c1 := { c with paras := c.paras.map (clearPhPara ph) }
    if !items.isEmpty then insertImagesIntoCell env c1 items (11 / 2 : ℚ) else c1
  else c

/-- Body-paragraph pass of `replace_placeholder_with_images`: a paragraph
containing the placeholder is removed and the item paragraphs are inserted
at its position. -/
def replaceImgBodyPara (env : ImgEnv) (ph : Str) (items : List ImgItem) (p : Para) : List Para :=
  if strContains p.text ph then items.flatMap (itemParas env (6 : ℚ)) else [p]

/-- `DocumentImageProcessor.replace_placeholder_with_images`. -/
def replacePlaceholderWithImages (env : ImgEnv) (doc : Doc) (ph : Str)
    (items : List ImgItem) : Doc :=
  { doc with
    tables := doc.tables.map
      (fun t => { rows := t.rows.map (fun row => row.map (replaceImgCell env ph items)) }),
    body := doc.body.flatMap (replaceImgBodyPara env ph items) }

/-! ### `text_with_image` and the evidence-cell cache

Python caches the found cell object in `self.evidence_cell_cache`; the
embedding identifies a cell by its position `(table, row, cell)`.  Cells
are never moved, so object identity and position agree. -/

def findCellIdxInRow (kw : Str) (row : List Cell) : Option Nat :=
  row.findIdx? (fun c => strContains (cellText c) kw)

def findCellLocInRows (kw : Str) : List (List Cell) → Option (Nat × Nat)
  | [] => none
  | row :: rest =>
    match findCellIdxInRow kw row with
    | some ci => some (0, ci)
    | none =>
      match findCellLocInRows kw rest with
      | some (ri, ci) => some (ri + 1, ci)
      | none => none

def findCellLoc (kw : Str) : List Table → Option (Nat × Nat × Nat)
  | [] => none
  | t :: rest =>
    match findCellLocInRows kw t.rows with
    | some (ri, ci) => some (0, ri, ci)
    | none =>
      match findCellLoc kw rest with
      | some (ti, ri, ci) => some (ti + 1, ri, ci)
      | none => none

def cellAt? (doc : Doc) : Nat × Nat × Nat → Option Cell
  | (ti, ri, ci) =>
    match doc.tables[ti]? with
    | none => none
    | some t =>
      match t.rows[ri]? with
      | none => none
      | some row => row[ci]?

def setCellAt (doc : Doc) : Nat × Nat × Nat → Cell → Doc
  | (ti, ri, ci), c =>
    { doc with
      tables := doc.tables.modify
        (fun t => { rows := t.rows.modify (fun row => row.set ci c) ri }) ti }

structure DocState where
  doc : Doc
  cache : Option (Nat × Nat × Nat) := none
deriving DecidableEq, Repr

/-- The reserved keyword `#screenshotoffiling#`. -/
def screenshotToken : Str := strOf "#screenshotoffiling#"

def optTruthy : Option Str → Bool
  | some s => strTruthy s
  | none => false

/-- The pure content step of the cell-insertion arm of `text_with_image`
(lines 241–266): ensure a start paragraph, append an optional caption
paragraph and the picture paragraph, then drop a blank leading paragraph
when other paragraphs remain. -/
def cellInsertContent (env : ImgEnv) (c : Cell) (content k imgPath : Str) (cellW : ℚ) : Cell :=
  let c := if c.paras.isEmpty then { c with paras := [newPara] } else c
  let c := if strTruthy content ∧ content ≠ k
    then { c with paras := c.paras ++ [descPara content] } else c
  let c := { c with paras := c.paras ++ [imgParaOfRuns (insertImageRunT env [] imgPath cellW)] }
  match c.paras with
  | p0 :: rest => if strStrip p0.text = [] ∧ rest ≠ [] then { c with paras := rest } else c
  | [] => c

/-- Cell-insertion arm of `text_with_image` (lines 234–266): compute the
cell width (a `None` width raises a `TypeError` through the undone
division), then run the content step. -/
def insertIntoCellLoc (env : ImgEnv) (doc : Doc) (loc : Nat × Nat × Nat)
    (content k imgPath : Str) : Except Str Doc :=
  match cellAt? doc loc with
  | none => Except.error (strOf "stale cell reference")
  | some c =>
    match c.widthEmu with
    | none => Except.error (strOf "TypeError: unsupported operand type")
    | some wEmu =>
      Except.ok (setCellAt doc loc
        (cellInsertContent env c content k imgPath ((wEmu : ℚ) / 914400)))

/-- `DocumentImageProcessor.text_with_image(content, img_path, keyword)`.
The `#screenshotoffiling#` content overrides the keyword; a non-reserved
keyword consults the cached evidence cell before any search; a table hit
clears the keyword with the `cell.text` setter and caches the cell; a
paragraph hit clears the keyword, inserts after it, and removes the
paragraph when it became blank.  (On a raised error Python would leave the
partially updated document and cache behind; the error value here carries
no state, which no claim depends on.) -/
def textWithImage (env : ImgEnv) (st : DocState) (content imgPath : Str)
    (keyword : Option Str) : Except Str DocState :=
  let kw := if content = screenshotToken then some screenshotToken else keyword
  if optTruthy kw then
    let k := kw.getD []
    if k ≠ screenshotToken ∧ st.cache.isSome then
      match st.cache with
      | some loc =>
        (match insertIntoCellLoc env st.doc loc content k imgPath with
          | Except.error e => Except.error e
          | Except.ok doc2 => Except.ok { doc := doc2, cache := st.cache })
      | none => Except.ok st
    else
      match findCellLoc k st.doc.tables with
      | some loc =>
        let c0 := (cellAt? st.doc loc).getD emptyCell
        let doc1 := setCellAt st.doc loc (c0.setText (strReplace k [] (cellText c0)))
        let cache1 := if k ≠ screenshotToken then some loc else st.cache
        (match insertIntoCellLoc env doc1 loc content k imgPath with
          | Except.error e => Except.error e
          | Except.ok doc2 => Except.ok { doc := doc2, cache := cache1 })
      | none =>
        match st.doc.body.findIdx? (fun p => strContains p.text k) with
        | some i =>
          let p1 := (st.doc.body[i]?.getD newPara).setText
            (strReplace k [] ((st.doc.body[i]?.getD newPara).text))
          let inserted :=
            (if strTruthy content ∧ content ≠ k then [descPara content] else []) ++
              [imgParaOfRuns (insertImageRunT env [] imgPath (6 : ℚ))]
          let keep := if strStrip p1.text = [] then ([] : List Para) else [p1]
          Except.ok
            { doc := { st.doc with
                body := st.doc.body.take i ++ keep ++ inserted ++ st.doc.body.drop (i + 1) },
              cache := st.cache }
        | none => Except.ok st
  else Except.ok st

/-! ### DocumentComposer (`report_generator/core/document_merger.py`)

The class merger operates on the extracted zip: `document.xml` body
children, `document.xml.rels` entries, and the `word/media/` directory.
One package is modelled by `MDoc`; the accumulator (the extracted base
document) by `Accum`.  Media file names are kept split as
`os.path.splitext` produces them (extension includes the dot). -/

structure MediaName where
  stem : Str
  ext : Str
deriving DecidableEq, Repr

def MediaName.render (m : MediaName) : Str := m.stem ++ m.ext

/-- The `_doc{i}` disambiguated copy name
(`f"{file_name}_doc{doc_index}{file_ext}"`). -/
def MediaName.renamed (m : MediaName) (docIdx : Nat) : MediaName :=
  { stem := m.stem ++ strOf "_doc" ++ natToStr docIdx, ext := m.ext }

/-- One `<Relationship>` entry: `Id`, `Type` and `Target` attributes (the
code copies all attributes and overrides `Id` and `Target`). -/
structure Rel where
  id : Str
  relType : Str
  target : Str
deriving DecidableEq, Repr

/-- A run inside a body-level paragraph, as far as the merger reads it:
text, the page-break `w:br`, or an embed reference (`a:blip@r:embed`,
other `@r:embed` carriers, and `v:imagedata@r:id` are all remapped the
same way). -/
inductive MRun where
  | textR (s : Str)
  | brPage
  | embed (rid : Str)
deriving DecidableEq, Repr

/-- A body child: paragraph, table (with the embed references contained
anywhere inside it), or `w:sectPr`. -/
inductive MBlock where
  | para (runs : List MRun)
  | table (payload : Nat) (refs : List Str)
  | sect (payload : Nat)
deriving DecidableEq, Repr

def MBlock.isSect : MBlock → Bool
  | MBlock.sect _ => true
  | _ => false

/-- The page-break paragraph `_add_page_break` appends:
`<w:p><w:r><w:br w:type="page"/></w:r></w:p>`. -/
def pageBreakBlock : MBlock := MBlock.para [MRun.brPage]

def MRun.refs : MRun → List Str
  | MRun.embed rid => [rid]
  | _ => []

/-- Embed references contained in a block. -/
def MBlock.refs : MBlock → List Str
  | MBlock.para runs => runs.flatMap MRun.refs
  | MBlock.table _ refs => refs
  | MBlock.sect _ => []

/-- `id_mapping` application: a reference whose old ID has an entry is
rewritten, any other reference is left unchanged. -/
def applyMap (mapping : List (Str × Str)) (rid : Str) : Str :=
  match List.lookup rid mapping with
  | some nid => nid
  | none => rid

def MRun.updateRef (mapping : List (Str × Str)) : MRun → MRun
  | MRun.embed rid => MRun.embed (applyMap mapping rid)
  | r => r

/-- `_update_document_media_references` on one block. -/
def MBlock.updateRefs (mapping : List (Str × Str)) : MBlock → MBlock
  | MBlock.para runs => MBlock.para (runs.map (MRun.updateRef mapping))
  | MBlock.table p refs => MBlock.table p (refs.map (applyMap mapping))
  | MBlock.sect p => MBlock.sect p

/-- Python dict insertion: overwrite an existing key, else append. -/
def dictInsert (d : List (Str × Str)) (k v : Str) : List (Str × Str) :=
  if (List.lookup k d).isSome then d.map (fun p => if p.1 = k then (k, v) else p)
  else d ++ [(k, v)]

/-- One source package: body children, the optional
`word/_rels/document.xml.rels` entries, the optional `word/media/`
directory content. -/
structure MDoc where
  blocks : List MBlock := []
  rels : Option (List Rel) := none
  media : Option (List MediaName) := none
deriving DecidableEq, Repr

/-- The accumulator (extracted base document): the rels file is created
empty when absent, the media directory likewise. -/
structure Accum where
  blocks : List MBlock := []
  rels : List Rel := []
  media : List MediaName := []
deriving DecidableEq, Repr

/-- `_get_max_relationship_id`: the maximum numeric suffix over `rIdN`
entries, `0` when there is none. -/
def maxRelId (rels : List Rel) : Nat :=
  rels.foldl (fun m r => match parseRIdNum r.id with | some n => max m n | none => m) 0

/-- Copy a file into the media directory (overwriting a same-named file). -/
def mediaAdd (l : List MediaName) (m : MediaName) : List MediaName :=
  if m ∈ l then l else l ++ [m]

/-- The first relationship whose target is `media/{file}`. -/
def relForMedia (rels : List Rel) (m : MediaName) : Option Rel :=
  rels.find? (fun r => r.target == strOf "media/" ++ m.render)

/-- The per-media-file loop of `_merge_media_files` (lines 348–374): copy
the file under its `_doc{i}` name, find the first relationship targeting
it, allocate `rId{max_id+1}`, record the old→new mapping, and append the
renamed relationship. -/
def mergeMediaGo (docIdx : Nat) (srcRels : List Rel) :
    List MediaName → Nat → List Rel → List MediaName → List (Str × Str) →
      Nat × List Rel × List MediaName × List (Str × Str)
  | [], maxId, baseRels, baseMedia, mapping => (maxId, baseRels, baseMedia, mapping)
  | m :: ms, maxId, baseRels, baseMedia, mapping =>
    let newName := m.renamed docIdx
    let baseMedia2 := mediaAdd baseMedia newName
    match relForMedia srcRels m with
    | some rel =>
      let newId := rIdStr (maxId + 1)
      mergeMediaGo docIdx srcRels ms (maxId + 1)
        (baseRels ++ [{ id := newId, relType := rel.relType,
                        target := strOf "media/" ++ newName.render }])
        baseMedia2 (dictInsert mapping rel.id newId)
    | none => mergeMediaGo docIdx srcRels ms maxId baseRels baseMedia2 mapping

/-- `_merge_media_files`: nothing happens without a media directory or
without a source rels file (the media copy loop is never reached); else
run the per-file loop seeded with the accumulator's current maximum ID. -/
def mergeMediaFiles (docIdx : Nat) (acc : Accum) (src : MDoc) :
    Accum × List (Str × Str) :=
  match src.media with
  | none => (acc, [])
  | some ms =>
    match src.rels with
    | none => (acc, [])
    | some srels =>
      let res := mergeMediaGo docIdx srels ms (maxRelId acc.rels) acc.rels acc.media []
      ({ acc with rels := res.2.1, media := res.2.2.1 }, res.2.2.2)

/-- `./*[not(self::w:sectPr)]`: every body child except section
properties. -/
def nonSectBlocks (blocks : List MBlock) : List MBlock :=
  blocks.filter (fun b => !b.isSect)

/-- `_merge_single_document` for an already extracted and parsed source:
append the page break, merge media/relationships, rewrite the source's
embed references through the mapping, and append its non-`sectPr`
children. -/
def mergeStep (docIdx : Nat) (acc : Accum) (src : MDoc) : Accum :=
  let acc1 := { acc with blocks := acc.blocks ++ [pageBreakBlock] }
  let res := mergeMediaFiles docIdx acc1 src
  { res.1 with blocks :=
      res.1.blocks ++ nonSectBlocks (src.blocks.map (MBlock.updateRefs res.2)) }

/-- Remove the first `./w:sectPr` child (the `body.remove(sect_pr)` of
lines 159–170). -/
def removeFirstSect : List MBlock → List MBlock
  | [] => []
  | b :: bs => if b.isSect then bs else b :: removeFirstSect bs

def firstSect (blocks : List MBlock) : Option MBlock := blocks.find? MBlock.isSect

def countSect (blocks : List MBlock) : Nat := (blocks.filter MBlock.isSect).length

def mergeFold (acc : Accum) (i : Nat) : List MDoc → Accum
  | [] => acc
  | s :: ss => mergeFold (mergeStep i acc s) (i + 1) ss

/-- The accumulator seeded from the base document: its body with the first
`sectPr` detached, its rels entries (an empty table when the rels part is
absent), its media names (empty when the directory is absent). -/
def baseAccum (base : MDoc) : Accum :=
  { blocks := removeFirstSect base.blocks,
    rels := base.rels.getD [], media := base.media.getD [] }

/-- `DocumentMerger.merge_docx_files` on valid, parsed packages: the first
source is the accumulator, each further source is merged in input order
with document indices 1, 2, …, and the detached section properties are
re-appended last. -/
def mergeDocs (base : MDoc) (rest : List MDoc) : Accum :=
  let accN := mergeFold (baseAccum base) 1 rest
  { accN with blocks := accN.blocks ++
      (match firstSect base.blocks with | some s => [s] | none => []) }

/-- The accumulator state after the first `k` of the subsequent sources. -/
def accumAt (base : MDoc) (rest : List MDoc) (k : Nat) : Accum :=
  mergeFold (baseAccum base) 1 (rest.take k)

/-- All embed references of a block list. -/
def refsOf (blocks : List MBlock) : List Str := blocks.flatMap MBlock.refs

/-- `rid` resolves: some relationship entry carries it and targets an
existing media file. -/
def relResolves (rels : List Rel) (media : List MediaName) (rid : Str) : Prop :=
  ∃ rel ∈ rels, rel.id = rid ∧ ∃ m ∈ media, rel.target = strOf "media/" ++ m.render

/-- Referential integrity of a body against a relationship table and a
media store. -/
def refsOK (blocks : List MBlock) (rels : List Rel) (media : List MediaName) : Prop :=
  ∀ rid ∈ refsOf blocks, relResolves rels media rid

/-- Well-formedness of one subsequent source: every embed reference has a
relationship entry targeting one of its own media files, and relationship
targets are pairwise distinct. -/
def srcOK (src : MDoc) : Prop :=
  (∀ rid ∈ refsOf src.blocks, ∃ rel ∈ src.rels.getD [], rel.id = rid ∧
      ∃ m ∈ src.media.getD [], rel.target = strOf "media/" ++ m.render) ∧
  ((src.rels.getD []).map Rel.target).Nodup

/-! ### Input validation and merge outcomes
(`merge_docx.py` lines 83–340 and `DocumentMerger.merge_docx_files`
lines 24–103)

The zip/XML feasibility of each input path is abstracted into flags; the
parse of its `document.xml` and of its rels part into status values. -/

inductive ParseStatus where
  | xmlError
  | noBody
  | okDoc (d : MDoc)
deriving DecidableEq, Repr

inductive RelsStatus where
  | absent
  | parseErr
  | okRels
deriving DecidableEq, Repr

structure InputFile where
  onDisk : Bool
  docxExt : Bool
  zipOk : Bool
  hasDocXml : Bool
  parse : ParseStatus
  relsStatus : RelsStatus
deriving DecidableEq, Repr

/-- The validation filter of `merge_docx.py` lines 93–107: existing,
`.docx`-suffixed, zip-openable, `word/document.xml`-bearing. -/
def InputFile.valid (f : InputFile) : Bool :=
  f.onDisk && f.docxExt && f.zipOk && f.hasDocXml

def validFilter (fs : List InputFile) : List InputFile := fs.filter InputFile.valid

inductive MergeOutcome where
  | okDone
  | failNoFiles
  | failNoValid
  | failXml
  | raisedNoBody
  | raisedRels
deriving DecidableEq, Repr

/-- The base document's rels part as the loop sees it. -/
inductive BaseRels where
  | absent
  | okPart
  | badPart
deriving DecidableEq, Repr

def toBaseRels : RelsStatus → BaseRels
  | RelsStatus.absent => BaseRels.absent
  | RelsStatus.parseErr => BaseRels.badPart
  | RelsStatus.okRels => BaseRels.okPart

/-- The per-source loop of `merge_docx.py` lines 160–299: a source whose
`document.xml` fails to parse or has no body is skipped with a warning; a
source whose own rels part is malformed raises (`etree.parse` at line 267
is not guarded); a source with a rels part also parses the base rels part
(line 272), which raises when that part is malformed; everything else is
merged and the loop continues. -/
def scriptRestLoop : BaseRels → List InputFile → MergeOutcome
  | _, [] => MergeOutcome.okDone
  | br, f :: fs =>
    match f.parse with
    | ParseStatus.xmlError => scriptRestLoop br fs
    | ParseStatus.noBody => scriptRestLoop br fs
    | ParseStatus.okDoc _ =>
      match f.relsStatus with
      | RelsStatus.parseErr => MergeOutcome.raisedRels
      | RelsStatus.absent => scriptRestLoop br fs
      | RelsStatus.okRels =>
        match br with
        | BaseRels.badPart => MergeOutcome.raisedRels
        | BaseRels.absent => scriptRestLoop BaseRels.absent fs
        | BaseRels.okPart => scriptRestLoop BaseRels.okPart fs

/-- Control flow of `merge_docx.py`'s `merge_docx_files`: empty list →
immediate failure; empty validation filter → the no-valid-inputs failure;
first valid file's `document.xml` unparseable → failure; body missing →
an uncaught `IndexError` from `xpath(...)[0]`; otherwise the per-source
loop runs and the final save/package steps succeed. -/
def scriptMergeOutcome (files : List InputFile) : MergeOutcome :=
  if files.isEmpty then MergeOutcome.failNoFiles
  else
    match validFilter files with
    | [] => MergeOutcome.failNoValid
    | v0 :: rest =>
      match v0.parse with
      | ParseStatus.xmlError => MergeOutcome.failXml
      | ParseStatus.noBody => MergeOutcome.raisedNoBody
      | ParseStatus.okDoc _ => scriptRestLoop (toBaseRels v0.relsStatus) rest

/-- Control flow of `DocumentMerger.merge_docx_files` (lines 24–103): no
validation filter; an empty list and a list of fewer than two paths both
fail; the first path is extracted directly, so a first file that is
missing, not a zip, or without `word/document.xml` fails, an unparseable
or body-less first file fails; per-source failures later are skipped. -/
def classMergeOutcome (files : List InputFile) : Bool :=
  if files.isEmpty then false
  else if files.length < 2 then false
  else
    match files with
    | [] => false
    | f0 :: _ =>
      if f0.onDisk && f0.zipOk && f0.hasDocXml then
        match f0.parse with
        | ParseStatus.okDoc _ => true
        | _ => false
      else false

/-- A concrete environment in which no path exists, decoding fails, and
`add_picture` raises. -/
def imgEnv0 : ImgEnv :=
  { cwd := [], isAbs := fun _ => true, fileExists := fun _ => false,
    decodeDims := fun _ => none, addPicFails := fun _ => true,
    errStr := fun _ => strOf "err" }

/-- An empty package value. -/
def mdocEmpty : MDoc := {}

/-- A fully valid input whose document part parses. -/
def goodInput : InputFile :=
  { onDisk := true, docxExt := true, zipOk := true, hasDocXml := true,
    parse := ParseStatus.okDoc mdocEmpty, relsStatus := RelsStatus.okRels }

/-- An input that fails the validation filter (missing on disk). -/
def badInput : InputFile :=
  { onDisk := false, docxExt := true, zipOk := false, hasDocXml := false,
    parse := ParseStatus.xmlError, relsStatus := RelsStatus.absent }

/-- A concrete base package: one image reference, one relationship, one
media file, one trailing section-properties node. -/
def c1base : MDoc :=
  { blocks := [MBlock.para [MRun.embed (strOf "rId1")], MBlock.sect 1],
    rels := some [{ id := strOf "rId1", relType := strOf "image",
                    target := strOf "media/a.png" }],
    media := some [{ stem := strOf "a", ext := strOf ".png" }] }

/-- A concrete source package: one image reference over its own
relationship and media file. -/
def c1src : MDoc :=
  { blocks := [MBlock.para [MRun.embed (strOf "rId1")]],
    rels := some [{ id := strOf "rId1", relType := strOf "image",
                    target := strOf "media/b.png" }],
    media := some [{ stem := strOf "b", ext := strOf ".png" }] }

/-! ## Theorems -/

theorem digitChar_toNat : ∀ d, d < 10 → (digitChar d).toNat = 48 + d := by decide

theorem digitChar_isDigit : ∀ d, d < 10 → isDigitCh (digitChar d) = true := by decide

theorem digitsVal_rev_map (l : List Nat) (hl : ∀ d ∈ l, d < 10) :
    digitsVal ((l.map digitChar).reverse) = Nat.ofDigits 10 l := by
  induction l with
  | nil => rfl
  | cons d ds ih =>
    have hd : d < 10 := hl d (List.mem_cons_self _ _)
    have hds : ∀ x ∈ ds, x < 10 := fun x hx => hl x (List.mem_cons_of_mem _ hx)
    have hfold : ∀ (t : Str) (a : Nat),
        List.foldl (fun a c => 10 * a + (c.toNat - 48)) a (t ++ [digitChar d]) =
          10 * List.foldl (fun a c => 10 * a + (c.toNat - 48)) a t + d := by
      intro t a
      rw [List.foldl_append]
      simp only [List.foldl_cons, List.foldl_nil]
      rw [digitChar_toNat d hd]
      omega
    simp only [List.map_cons, List.reverse_cons, digitsVal] at *
    rw [hfold]
    rw [ih hds]
    rw [Nat.ofDigits_cons]
    push_cast
    ring

theorem natToStr_digits (n : Nat) : natToStr n ≠ [] ∧ (natToStr n).all isDigitCh := by
  unfold natToStr
  by_cases h : n = 0
  · subst h; exact ⟨by decide, by decide⟩
  · simp only [h, if_false]
    constructor
    · simp only [ne_eq, List.reverse_eq_nil_iff, List.map_eq_nil_iff]
      exact Nat.digits_ne_nil_iff_ne_zero.mpr h
    · rw [List.all_eq_true]
      intro c hc
      rw [List.mem_reverse, List.mem_map] at hc
      obtain ⟨d, hd, rfl⟩ := hc
      exact digitChar_isDigit d (Nat.digits_lt_base (by norm_num) hd)

theorem digitsVal_natToStr (n : Nat) : digitsVal (natToStr n) = n := by
  unfold natToStr
  by_cases h : n = 0
  · subst h; rfl
  · simp only [h, if_false]
    rw [digitsVal_rev_map _ (fun d hd => Nat.digits_lt_base (by norm_num) hd)]
    exact Nat.ofDigits_digits 10 n

/-- Round trip: parsing the canonical `rId{n}` yields `n`. -/
theorem parseRIdNum_rIdStr (n : Nat) : parseRIdNum (rIdStr n) = some n := by
  obtain ⟨hne, hall⟩ := natToStr_digits n
  simp only [rIdStr, parseRIdNum, hne, hall, and_true, ne_eq, not_false_iff, if_true,
    digitsVal_natToStr]

/-- `rIdStr` is injective. -/
theorem rIdStr_inj {a b : Nat} (h : rIdStr a = rIdStr b) : a = b := by
  have ha := parseRIdNum_rIdStr a
  rw [h, parseRIdNum_rIdStr b] at ha
  exact (Option.some_inj.mp ha).symm


/-! ### Generic list helpers -/

theorem flatMap_id_of_mem {α : Type} {l : List α} {f : α → List α}
    (h : ∀ x ∈ l, f x = [x]) : l.flatMap f = l := by
  induction l with
  | nil => rfl
  | cons x xs ih =>
    simp only [List.flatMap_cons, h x (List.mem_cons_self _ _),
      ih (fun y hy => h y (List.mem_cons_of_mem _ hy)), List.singleton_append]

theorem map_id_of_mem {α : Type} {l : List α} {f : α → α}
    (h : ∀ x ∈ l, f x = x) : l.map f = l := by
  induction l with
  | nil => rfl
  | cons x xs ih =>
    simp only [List.map_cons, h x (List.mem_cons_self _ _),
      ih (fun y hy => h y (List.mem_cons_of_mem _ hy))]

theorem mem_of_lookup_eq_some {α β : Type} [BEq α] [LawfulBEq α] {k : α} {v : β}
    {l : List (α × β)} (h : List.lookup k l = some v) : (k, v) ∈ l := by
  induction l with
  | nil => simp [List.lookup] at h
  | cons kv rest ih =>
    obtain ⟨k1, v1⟩ := kv
    rw [List.lookup] at h
    cases hbeq : k == k1 with
    | true =>
      rw [hbeq] at h
      simp only [Option.some.injEq] at h
      subst h
      have hk : k = k1 := eq_of_beq hbeq
      subst hk
      exact List.mem_cons_self _ _
    | false =>
      rw [hbeq] at h
      exact List.mem_cons_of_mem _ (ih h)

theorem findIdx?_append_cons {α : Type} (p : α → Bool) (l1 : List α) (x : α) (l2 : List α)
    (h1 : ∀ y ∈ l1, p y = false) (hx : p x = true) :
    ∀ i, List.findIdx? p (l1 ++ x :: l2) i = some (i + l1.length) := by
  induction l1 with
  | nil => intro i; simp [List.findIdx?_cons, hx]
  | cons y ys ih =>
    intro i
    have hy : p y = false := h1 y (List.mem_cons_self _ _)
    have := ih (fun z hz => h1 z (List.mem_cons_of_mem _ hz)) (i + 1)
    simp only [List.cons_append, List.findIdx?_cons, hy, Bool.false_eq_true, if_false, this,
      List.length_cons]
    congr 1
    omega

/-! ### No-op substitution lemmas (claim C9) -/

theorem substFold_id {reps : List (Str × Str)} {t : Str}
    (h : ∀ kv ∈ reps, strContains t kv.1 = false) : substFold reps t = (t, false) := by
  unfold substFold
  induction reps with
  | nil => rfl
  | cons kv rest ih =>
    simp only [List.foldl_cons, h kv (List.mem_cons_self _ _), Bool.false_eq_true, if_false]
    exact ih (fun x hx => h x (List.mem_cons_of_mem _ hx))

theorem substAll_id {reps : List (Str × Str)} {t : Str}
    (h : ∀ kv ∈ reps, strContains t kv.1 = false) : substAll reps t = t := by
  unfold substAll
  induction reps with
  | nil => rfl
  | cons kv rest ih =>
    simp only [List.foldl_cons, h kv (List.mem_cons_self _ _), Bool.false_eq_true, if_false]
    exact ih (fun x hx => h x (List.mem_cons_of_mem _ hx))

theorem processParaBody_id {reps : List (Str × Str)} {enableColor : Bool} {riskVal : Str}
    {p : Para} (hp : ∀ kv ∈ reps, strContains p.text kv.1 = false)
    (hrisk : (riskColorLookup riskVal).isSome = false ∨
      strContains p.text riskLevelKey = false) :
    processParaBody reps enableColor riskVal p = [p] := by
  unfold processParaBody
  by_cases hhash : strContains p.text ['#'] = true
  · simp only [hhash, Bool.not_true, Bool.false_eq_true, if_false]
    have hcolor : (enableColor && strContains p.text riskLevelKey &&
        (riskColorLookup riskVal).isSome) = false := by
      rcases hrisk with h | h <;> simp [h]
    simp only [hcolor, Bool.false_eq_true, if_false]
    have hml : (reps.any fun kv => strContains p.text kv.1 && strContains kv.2 ['\n']) = false := by
      rw [List.any_eq_false]
      intro kv hkv
      simp [hp kv hkv]
    simp only [hml, Bool.false_eq_true, if_false, substFold_id hp]
  · simp only [Bool.not_eq_true] at hhash
    simp [hhash]

theorem processParaSimple_id {reps : List (Str × Str)} {p : Para}
    (hp : ∀ kv ∈ reps, strContains p.text kv.1 = false) :
    processParaSimple reps p = p := by
  unfold processParaSimple
  by_cases hhash : strContains p.text ['#'] = true
  · simp [hhash, substFold_id hp]
  · simp only [Bool.not_eq_true] at hhash
    simp [hhash]

theorem processParaHeaderCell_id {reps : List (Str × Str)} {p : Para}
    (hp : ∀ kv ∈ reps, strContains p.text kv.1 = false) :
    processParaHeaderCell reps p = p := by
  unfold processParaHeaderCell
  simp [substFold_id hp]

theorem processParaCell_id {reps : List (Str × Str)} {enableColor : Bool} {riskVal : Str}
    {p : Para} (hp : ∀ kv ∈ reps, strContains p.text kv.1 = false)
    (hrisk : (riskColorLookup riskVal).isSome = false ∨
      strContains p.text riskLevelKey = false) :
    processParaCell reps enableColor riskVal p = p := by
  unfold processParaCell
  have hcolor : (enableColor && strContains p.text riskLevelKey &&
      (riskColorLookup riskVal).isSome) = false := by
    rcases hrisk with h | h <;> simp [h]
  simp [hcolor, substFold_id hp]


/-! ### Cell/table no-op lemmas for claim C9 -/

theorem processCellHeader_id {reps : List (Str × Str)} {c : Cell}
    (hp : ∀ p ∈ c.paras, ∀ kv ∈ reps, strContains p.text kv.1 = false) :
    processCellHeader reps c = c := by
  unfold processCellHeader
  by_cases hs : cellSkipped c = true
  · simp [hs]
  · simp only [Bool.not_eq_true] at hs
    simp only [hs, Bool.false_eq_true, if_false]
    have hmap : c.paras.map (processParaHeaderCell reps) = c.paras :=
      map_id_of_mem (fun p hp2 => processParaHeaderCell_id (hp p hp2))
    simp [hmap]

theorem processCellBody_id {reps : List (Str × Str)} {enableColor : Bool} {riskVal : Str}
    {c : Cell}
    (hp : ∀ p ∈ c.paras, ∀ kv ∈ reps, strContains p.text kv.1 = false)
    (hr : ∀ p ∈ c.paras, (riskColorLookup riskVal).isSome = false ∨
      strContains p.text riskLevelKey = false) :
    processCellBody reps enableColor riskVal c = c := by
  unfold processCellBody
  by_cases hs : cellSkipped c = true
  · simp [hs]
  · simp only [Bool.not_eq_true] at hs
    simp only [hs, Bool.false_eq_true, if_false]
    have hmap : c.paras.map (processParaCell reps enableColor riskVal) = c.paras :=
      map_id_of_mem (fun p hp2 => processParaCell_id (hp p hp2) (hr p hp2))
    simp [hmap]

theorem processTableHeader_id {reps : List (Str × Str)} {t : Table}
    (hp : ∀ p ∈ tableParas t, ∀ kv ∈ reps, strContains p.text kv.1 = false) :
    processTableHeader reps t = t := by
  unfold processTableHeader
  have hrows : t.rows.map (fun row => row.map (processCellHeader reps)) = t.rows := by
    apply map_id_of_mem
    intro row hrow
    apply map_id_of_mem
    intro c hc
    apply processCellHeader_id
    intro p hp2
    apply hp
    unfold tableParas
    exact List.mem_flatMap.mpr ⟨row, hrow, List.mem_flatMap.mpr ⟨c, hc, hp2⟩⟩
  simp [hrows]

theorem processTableBody_id {reps : List (Str × Str)} {enableColor : Bool} {riskVal : Str}
    {t : Table}
    (hp : ∀ p ∈ tableParas t, ∀ kv ∈ reps, strContains p.text kv.1 = false)
    (hr : ∀ p ∈ tableParas t, (riskColorLookup riskVal).isSome = false ∨
      strContains p.text riskLevelKey = false) :
    processTableBody reps enableColor riskVal t = t := by
  unfold processTableBody
  have hrows : t.rows.map (fun row => row.map (processCellBody reps enableColor riskVal))
      = t.rows := by
    apply map_id_of_mem
    intro row hrow
    apply map_id_of_mem
    intro c hc
    have hmem : ∀ p ∈ c.paras, p ∈ tableParas t := by
      intro p hp2
      unfold tableParas
      exact List.mem_flatMap.mpr ⟨row, hrow, List.mem_flatMap.mpr ⟨c, hc, hp2⟩⟩
    exact processCellBody_id (fun p hp2 => hp p (hmem p hp2))
      (fun p hp2 => hr p (hmem p hp2))
  simp [hrows]

theorem processSection_id {reps : List (Str × Str)} {s : Section}
    (hp : ∀ p ∈ s.headerParas ++ s.headerTables.flatMap tableParas,
      ∀ kv ∈ reps, strContains p.text kv.1 = false) :
    processSection reps s = s := by
  unfold processSection
  have h1 : s.headerParas.map (processParaSimple reps) = s.headerParas := by
    apply map_id_of_mem
    intro p hp2
    exact processParaSimple_id (hp p (List.mem_append_left _ hp2))
  have h2 : s.headerTables.map (processTableHeader reps) = s.headerTables := by
    apply map_id_of_mem
    intro t ht
    apply processTableHeader_id
    intro p hp2
    exact hp p (List.mem_append_right _ (List.mem_flatMap.mpr ⟨t, ht, hp2⟩))
  simp [h1, h2]

/-- C9: a `PlaceholderMap` none of whose keys occurs in any body paragraph,
header paragraph, header-table cell or body-table cell leaves the document
unchanged under `replace_report_text`, for either colour mode. -/
theorem c9_theorem (doc : Doc) (reps : List (Str × Str)) (enableColor : Bool)
    (h : ∀ kv ∈ reps, ∀ p ∈ doc.allParas, strContains p.text kv.1 = false) :
    replaceReportText doc reps enableColor = doc := by
  have hmem : ∀ p ∈ doc.allParas, ∀ kv ∈ reps, strContains p.text kv.1 = false :=
    fun p hp kv hkv => h kv hkv p hp
  have hrisk : ∀ p ∈ doc.allParas,
      (riskColorLookup ((List.lookup riskLevelKey reps).getD [])).isSome = false ∨
        strContains p.text riskLevelKey = false := by
    intro p hp
    cases hl : List.lookup riskLevelKey reps with
    | none =>
      left
      simp only [hl, Option.getD_none]
      decide
    | some v =>
      right
      exact hmem p hp (riskLevelKey, v) (mem_of_lookup_eq_some hl)
  have hbodymem : ∀ p ∈ doc.body, p ∈ doc.allParas := by
    intro p hp
    unfold Doc.allParas
    exact List.mem_append_left _ (List.mem_append_left _ hp)
  have hsectmem : ∀ s ∈ doc.sections,
      ∀ p ∈ s.headerParas ++ s.headerTables.flatMap tableParas, p ∈ doc.allParas := by
    intro s hs p hp
    unfold Doc.allParas
    exact List.mem_append_left _
      (List.mem_append_right _ (List.mem_flatMap.mpr ⟨s, hs, hp⟩))
  have htabmem : ∀ t ∈ doc.tables, ∀ p ∈ tableParas t, p ∈ doc.allParas := by
    intro t ht p hp
    unfold Doc.allParas
    exact List.mem_append_right _ (List.mem_flatMap.mpr ⟨t, ht, hp⟩)
  have hbody : doc.body.flatMap
      (processParaBody reps enableColor ((List.lookup riskLevelKey reps).getD [])) =
        doc.body := by
    apply flatMap_id_of_mem
    intro p hp
    exact processParaBody_id (hmem p (hbodymem p hp)) (hrisk p (hbodymem p hp))
  have hsections : doc.sections.map (processSection reps) = doc.sections := by
    apply map_id_of_mem
    intro s hs
    exact processSection_id (fun p hp => hmem p (hsectmem s hs p hp))
  have htables : doc.tables.map
      (processTableBody reps enableColor ((List.lookup riskLevelKey reps).getD [])) =
        doc.tables := by
    apply map_id_of_mem
    intro t ht
    exact processTableBody_id (fun p hp => hmem p (htabmem t ht p hp))
      (fun p hp => hrisk p (htabmem t ht p hp))
  simp only [replaceReportText, hbody, hsections, htables]

/-- Witness for C9 at a concrete document and map. -/
theorem c9_witness :
    replaceReportText
      { body := [{ runs := [plainRun (strOf "Hello #kept# world")] }],
        tables := [{ rows := [[{ paras := [{ runs := [plainRun (strOf "cell #kept#")] }] }]] }] }
      [(strOf "#absent#", strOf "value")] true =
      { body := [{ runs := [plainRun (strOf "Hello #kept# world")] }],
        tables := [{ rows := [[{ paras := [{ runs := [plainRun (strOf "cell #kept#")] }] }]] }] } :=
  c9_theorem _ _ _ (by decide)

/-! ### Claims C3, C4, C8 -/

/-- The C3 failing input: one paragraph holding the risk token and a second
token, both mapped, with colour mode on. -/
def c3doc : Doc :=
  { body := [{ runs := [plainRun (strOf "#overall_risk_level# for #customer#")] }] }

def c3reps : List (Str × Str) :=
  [(strOf "#overall_risk_level#", strOf "高危"), (strOf "#customer#", strOf "Acme")]

/-- C3 (code bug evaluation): with colour mode on, the risk token is
rendered as a bold run coloured per the risk table, but the other mapped
token of the same paragraph is left in the paragraph un-substituted — the
follow-up substitution happens on a local string the source discards. -/
theorem c3_code_eval :
    (replaceReportText c3doc c3reps true).body =
      [{ runs := [ { text := [] },
                   { text := strOf "高危", bold := true, colorRgb := some 0xdc3545 },
                   plainRun (strOf " for #customer#") ] }] ∧
    ((replaceReportText c3doc c3reps true).body.map Para.text) =
      [strOf "高危 for #customer#"] ∧
    strContains (strOf "高危 for #customer#") (strOf "#customer#") = true := by
  refine ⟨by decide, by decide, by decide⟩

/-- The C4 counterexample document: a paragraph that contains the token as
a proper substring, so its trimmed text does not equal the token. -/
def c4doc : Doc := { body := [{ runs := [plainRun (strOf "X#toc#Y")] }] }

/-- C4 counterexample: no paragraph of `c4doc` equals `#toc#` after
trimming, yet `insert_toc_at_placeholder` selects the substring match,
returns `true`, and mutates the document — the claimed
exact-match-after-trim contract (with `false` and no mutation otherwise)
is violated. -/
theorem c4_counterexample :
    (c4doc.body.map (fun p => strStrip p.text)) = [strOf "X#toc#Y"] ∧
    strOf "X#toc#Y" ≠ strOf "#toc#" ∧
    insertTocAtPlaceholder c4doc (strOf "#toc#") (strOf "目  录") ≠ (false, c4doc) := by
  refine ⟨by decide, by decide, by decide⟩

/-- C4 amended: `insert_toc_at_placeholder` selects the FIRST paragraph
whose text CONTAINS the token as a substring; when no paragraph contains
it, it returns `false` without mutating the document; on a hit it inserts
the title and TOC-field paragraphs at the hit position, removes the hit
paragraph, and sets the update-fields flag. -/
theorem c4_theorem (doc : Doc) (ph title : Str) :
    ((∀ p ∈ doc.body, strContains p.text ph = false) →
        insertTocAtPlaceholder doc ph title = (false, doc)) ∧
    (∀ pre p post, doc.body = pre ++ p :: post →
        (∀ q ∈ pre, strContains q.text ph = false) →
        strContains p.text ph = true →
        insertTocAtPlaceholder doc ph title =
          (true,
            { doc with
              body := pre ++ [tocTitlePara title, tocFieldPara] ++ post,
              updateFields := true })) := by
  constructor
  · intro hnone
    unfold insertTocAtPlaceholder
    rw [List.findIdx?_eq_none_iff.mpr hnone]
  · intro pre p post hsplit hpre hp
    unfold insertTocAtPlaceholder
    rw [hsplit, findIdx?_append_cons _ pre p post hpre hp 0]
    simp only [Nat.zero_add]
    have htake : (pre ++ p :: post).take pre.length = pre := List.take_left pre (p :: post)
    have hdrop : (pre ++ p :: post).drop (pre.length + 1) = post := by
      have h1 : (pre ++ p :: post).drop pre.length = p :: post := List.drop_left pre (p :: post)
      have h2 : (pre ++ p :: post).drop (pre.length + 1) =
          ((pre ++ p :: post).drop pre.length).drop 1 := by
        rw [List.drop_drop]
      rw [h2, h1]
      rfl
    rw [htake, hdrop]

/-- The C8 scenario document: a single paragraph whose text is exactly the
token. -/
def c8doc : Doc := { body := [{ runs := [plainRun (strOf "#name#")] }] }

/-- C8: the map `{"#name#": "Acme\nCorp"}` explodes the single paragraph
into exactly the two non-empty paragraphs "Acme" then "Corp"; and in every
multi-line expansion the retained lines are exactly those that are
non-blank after trimming, so no kept line is empty after trimming. -/
theorem c8_theorem :
    (replaceReportText c8doc [(strOf "#name#", strOf "Acme\nCorp")] false).body =
      [{ runs := [plainRun (strOf "Acme")] }, { runs := [plainRun (strOf "Corp")] }] ∧
    (∀ s : Str, ∀ l ∈ multilineLines s, strStrip l ≠ []) := by
  constructor
  · decide
  · intro s l hl
    have := (List.mem_filter.mp hl).2
    simp only [strTruthy, Bool.not_eq_true'] at this
    intro hnil
    rw [hnil] at this
    simp [List.isEmpty] at this

/-- Witness for C8: the second clause applied at a concrete line of a
concrete multi-line value. -/
theorem c8_witness :
    (replaceReportText c8doc [(strOf "#name#", strOf "Acme\nCorp")] false).body =
      [{ runs := [plainRun (strOf "Acme")] }, { runs := [plainRun (strOf "Corp")] }] ∧
    strStrip (strOf " a ") ≠ [] :=
  ⟨c8_theorem.1, c8_theorem.2 (strOf " a \n\n") (strOf " a ") (by decide)⟩

/-- Witness for C4: both arms of the amended theorem at concrete
documents. -/
theorem c4_witness :
    insertTocAtPlaceholder { body := [{ runs := [plainRun (strOf "no token here")] }] }
        (strOf "#toc#") (strOf "目  录") =
      (false, { body := [{ runs := [plainRun (strOf "no token here")] }] }) ∧
    insertTocAtPlaceholder
        { body := [{ runs := [plainRun (strOf "#toc#")] },
                   { runs := [plainRun (strOf "tail")] }] }
        (strOf "#toc#") (strOf "目  录") =
      (true,
        { body := [tocTitlePara (strOf "目  录"), tocFieldPara,
                   { runs := [plainRun (strOf "tail")] }],
          updateFields := true }) :=
  ⟨(c4_theorem _ _ _).1 (by decide),
   (c4_theorem _ _ _).2 [] _ [{ runs := [plainRun (strOf "tail")] }] rfl
     (by intro q hq; cases hq) (by decide)⟩

/-! ### Claim C6 -/

/-- C6 amended: `_insert_image_run` never raises — for every environment
and input it returns a run list; and when the resolved path is missing the
appended run is the literal `[图片不存在: <basename>]` text (the source's
Chinese literal, not the spec's English rendering). -/
theorem c6_theorem (env : ImgEnv) (runs : List Run) (imgPath : Str) (maxW : ℚ) :
    (∃ rs, insertImageRunE env runs imgPath maxW = Except.ok rs) ∧
    ((strTruthy (resolvePath env imgPath) = false ∨
        env.fileExists (resolvePath env imgPath) = false) →
      insertImageRunE env runs imgPath maxW =
        Except.ok (runs ++ [plainRun (imgMissingMsg imgPath)])) := by
  constructor
  · unfold insertImageRunE
    by_cases hmiss : (!strTruthy (resolvePath env imgPath) ||
        !env.fileExists (resolvePath env imgPath)) = true
    · rw [if_pos hmiss]
      exact ⟨_, rfl⟩
    · rw [if_neg hmiss]
      unfold tryCatch pilOpenE addPictureE
      cases hdec : env.decodeDims (resolvePath env imgPath) with
      | some wh =>
        by_cases hf : env.addPicFails (resolvePath env imgPath) = true
        · simp only [hdec, hf, if_true]
          exact ⟨_, rfl⟩
        · simp only [hdec, hf, Bool.false_eq_true, if_false]
          exact ⟨_, rfl⟩
      | none =>
        by_cases hf : env.addPicFails (resolvePath env imgPath) = true
        · simp only [hdec, hf, if_true]
          exact ⟨_, rfl⟩
        · simp only [hdec, hf, Bool.false_eq_true, if_false]
          exact ⟨_, rfl⟩
  · intro hmiss
    unfold insertImageRunE
    have : (!strTruthy (resolvePath env imgPath) ||
        !env.fileExists (resolvePath env imgPath)) = true := by
      rcases hmiss with h | h <;> simp [h]
    rw [if_pos this]

/-- Witness for C6 at a concrete environment where the path is missing. -/
theorem c6_witness :
    insertImageRunE imgEnv0 [] (strOf "x.png") 6 =
      Except.ok [plainRun (imgMissingMsg (strOf "x.png"))] :=
  (c6_theorem imgEnv0 [] (strOf "x.png") 6).2 (Or.inr rfl)

/-- C6 counterexample to the claimed literal: the degraded text inserted
for the missing `x.png` is `[图片不存在: x.png]`, which is not the claimed
`[image missing: x.png]`. -/
theorem c6_counterexample :
    insertImageRunE imgEnv0 [] (strOf "x.png") 6 =
      Except.ok [plainRun (strOf "[图片不存在: x.png]")] ∧
    strOf "[图片不存在: x.png]" ≠ strOf "[image missing: x.png]" := by
  refine ⟨by rfl, by decide⟩

/-! ### Claim C5 -/

theorem flatMap_if_nil_eq_filter {α : Type} (c : α → Bool) (l : List α) :
    l.flatMap (fun x => if c x then [] else [x]) = l.filter (fun x => !c x) := by
  induction l with
  | nil => rfl
  | cons x xs ih =>
    by_cases h : c x <;> simp [h, ih]

/-- C5 amended: with an empty image list, `replace_placeholder_with_images`
clears the token text inside every matching table cell without deleting
the cell or its paragraphs, inserts no image content anywhere, but REMOVES
every body paragraph containing the token (rather than keeping it). -/
theorem c5_theorem (env : ImgEnv) (doc : Doc) (ph : Str) (items : List ImgItem)
    (h : items = []) :
    replacePlaceholderWithImages env doc ph items =
      { doc with
        tables := doc.tables.map (fun t =>
          { rows := t.rows.map (fun row => row.map (fun c =>
              if strContains (cellText c) ph then
                { c with paras := c.paras.map (clearPhPara ph) }
              else c)) }),
        body := doc.body.filter (fun p => !(strContains p.text ph)) } := by
  subst h
  unfold replacePlaceholderWithImages
  have hcell : replaceImgCell env ph [] = fun c =>
      if strContains (cellText c) ph then
        { c with paras := c.paras.map (clearPhPara ph) }
      else c := by
    funext c
    unfold replaceImgCell
    simp
  have hbody : replaceImgBodyPara env ph ([] : List ImgItem) = fun p =>
      if strContains p.text ph then [] else [p] := by
    funext p
    unfold replaceImgBodyPara
    simp
  rw [hcell, hbody, flatMap_if_nil_eq_filter]

/-- Witness for C5: a document with the token in a body paragraph and in a
table cell; the cell survives with the token cleared, the body paragraph
is removed. -/
theorem c5_witness :
    replacePlaceholderWithImages imgEnv0
        { body := [{ runs := [plainRun (strOf "#evidence#")] }],
          tables := [{ rows :=
            [[{ paras := [{ runs := [plainRun (strOf "pre #evidence# post")] }] }]] }] }
        (strOf "#evidence#") [] =
      { body := [],
        tables := [{ rows :=
          [[{ paras := [{ runs := [plainRun (strOf "pre  post")] }] }]] }] } := by
  rw [c5_theorem imgEnv0 _ _ [] rfl]
  decide

/-- C5 counterexample: the claim says the containing paragraph itself is
not deleted, but a body paragraph that contains the token is removed
entirely: a one-paragraph body becomes empty. -/
theorem c5_counterexample :
    (Doc.body { body := [{ runs := [plainRun (strOf "#evidence#")] }] }).length = 1 ∧
    (replacePlaceholderWithImages imgEnv0
        { body := [{ runs := [plainRun (strOf "#evidence#")] }] }
        (strOf "#evidence#") []).body = [] := by
  refine ⟨rfl, by decide⟩

/-! ### Claim C10 -/

theorem setCellAt_body (doc : Doc) (loc : Nat × Nat × Nat) (c : Cell) :
    (setCellAt doc loc c).body = doc.body := by
  obtain ⟨ti, ri, ci⟩ := loc
  rfl

theorem cellAt?_setCellAt_ne (doc : Doc) (loc loc2 : Nat × Nat × Nat) (c : Cell)
    (hne : loc2 ≠ loc) : cellAt? (setCellAt doc loc c) loc2 = cellAt? doc loc2 := by
  obtain ⟨ti, ri, ci⟩ := loc
  obtain ⟨ti2, ri2, ci2⟩ := loc2
  unfold setCellAt cellAt?
  simp only
  rw [List.getElem?_modify]
  by_cases hti : ti = ti2
  · cases htab : doc.tables[ti2]? with
    | none => simp [htab]
    | some t =>
      simp only [htab, Option.map_some, hti, if_pos rfl, if_true]
      rw [List.getElem?_modify]
      by_cases hri : ri = ri2
      · cases hrow : t.rows[ri2]? with
        | none => simp [hrow]
        | some row =>
          have hci : ci ≠ ci2 := by
            intro hc
            exact hne (by rw [hti, hri, hc])
          simp only [hrow, Option.map_some, hri, if_pos rfl, if_true]
          rw [List.getElem?_set_ne hci]
      · cases hrow : t.rows[ri2]? with
        | none => simp [hrow]
        | some row => simp [hrow, hri]
  · cases htab : doc.tables[ti2]? with
    | none => simp [htab]
    | some t => simp [htab, hti]

/-- C10: once the evidence-cell cache holds a cell, a later
`text_with_image` call with a truthy keyword other than
`#screenshotoffiling#` (and a content other than that reserved token,
which would override the keyword) inserts its caption and image into the
cached cell, leaves the cache as it was, leaves every body paragraph
unchanged, and leaves every other cell unchanged — in particular the new
keyword is neither searched for nor cleared anywhere. -/
theorem c10_theorem (env : ImgEnv) (st : DocState) (content imgPath k : Str)
    (loc : Nat × Nat × Nat) (c : Cell) (w : Nat)
    (hcache : st.cache = some loc)
    (hk : k ≠ screenshotToken)
    (hkt : strTruthy k = true)
    (hcontent : content ≠ screenshotToken)
    (hcell : cellAt? st.doc loc = some c)
    (hw : c.widthEmu = some w) :
    textWithImage env st content imgPath (some k) =
      Except.ok
        { doc := setCellAt st.doc loc
            (cellInsertContent env c content k imgPath ((w : ℚ) / 914400)),
          cache := st.cache } ∧
    (setCellAt st.doc loc
        (cellInsertContent env c content k imgPath ((w : ℚ) / 914400))).body =
      st.doc.body ∧
    (∀ loc2, loc2 ≠ loc →
      cellAt? (setCellAt st.doc loc
          (cellInsertContent env c content k imgPath ((w : ℚ) / 914400))) loc2 =
        cellAt? st.doc loc2) := by
  refine ⟨?_, setCellAt_body _ _ _, fun loc2 h2 => cellAt?_setCellAt_ne _ _ _ _ h2⟩
  unfold textWithImage
  rw [if_neg hcontent]
  simp only [optTruthy, hkt, if_true, Option.getD_some]
  rw [if_pos ⟨hk, by rw [hcache]; rfl⟩]
  simp only [hcache]
  unfold insertIntoCellLoc
  simp only [hcell, hw]

/-- Witness for C10 at a concrete cached state. -/
theorem c10_witness :
    textWithImage imgEnv0
        { doc := { tables := [{ rows := [[{ paras := [], widthEmu := some 914400 }]] }] },
          cache := some (0, 0, 0) }
        (strOf "caption") (strOf "i.png") (some (strOf "#k2#")) =
      Except.ok
        { doc := setCellAt
            { tables := [{ rows := [[{ paras := [], widthEmu := some 914400 }]] }] }
            (0, 0, 0)
            (cellInsertContent imgEnv0 { paras := [], widthEmu := some 914400 }
              (strOf "caption") (strOf "#k2#") (strOf "i.png") ((914400 : ℚ) / 914400)),
          cache := some (0, 0, 0) } :=
  (c10_theorem imgEnv0
    { doc := { tables := [{ rows := [[{ paras := [], widthEmu := some 914400 }]] }] },
      cache := some (0, 0, 0) }
    (strOf "caption") (strOf "i.png") (strOf "#k2#") (0, 0, 0)
    { paras := [], widthEmu := some 914400 } 914400
    rfl (by decide) (by decide) (by decide) rfl rfl).1

/-! ### Merge structure lemmas and claim C2 -/

theorem mergeMediaFiles_blocks (i : Nat) (acc : Accum) (src : MDoc) :
    (mergeMediaFiles i acc src).1.blocks = acc.blocks := by
  unfold mergeMediaFiles
  cases src.media with
  | none => rfl
  | some ms =>
    cases src.rels with
    | none => rfl
    | some srels => rfl

theorem mergeStep_blocks (i : Nat) (acc : Accum) (src : MDoc) :
    (mergeStep i acc src).blocks =
      acc.blocks ++ [pageBreakBlock] ++
        nonSectBlocks (src.blocks.map (MBlock.updateRefs
          (mergeMediaFiles i { acc with blocks := acc.blocks ++ [pageBreakBlock] } src).2)) := by
  unfold mergeStep
  simp only [mergeMediaFiles_blocks]

theorem isSect_updateRefs (mapping : List (Str × Str)) (b : MBlock) :
    (b.updateRefs mapping).isSect = b.isSect := by
  cases b <;> rfl

theorem nonSect_map_update (mapping : List (Str × Str)) (l : List MBlock) :
    nonSectBlocks (l.map (MBlock.updateRefs mapping)) =
      (nonSectBlocks l).map (MBlock.updateRefs mapping) := by
  unfold nonSectBlocks
  rw [List.filter_map]
  congr 1
  apply List.filter_congr
  intro b _
  simp [Function.comp, isSect_updateRefs]

theorem countSect_append (a b : List MBlock) :
    countSect (a ++ b) = countSect a + countSect b := by
  unfold countSect
  rw [List.filter_append, List.length_append]

theorem countSect_nonSect (l : List MBlock) : countSect (nonSectBlocks l) = 0 := by
  unfold countSect nonSectBlocks
  induction l with
  | nil => rfl
  | cons b bs ih =>
    cases hb : b.isSect <;> simp [List.filter_cons, hb, ih]

theorem countSect_map_update (mapping : List (Str × Str)) (l : List MBlock) :
    countSect (l.map (MBlock.updateRefs mapping)) = countSect l := by
  unfold countSect
  rw [List.filter_map, List.length_map]
  congr 1
  apply List.filter_congr
  intro b _
  simp [Function.comp, isSect_updateRefs]

theorem nonSect_of_countSect_zero {l : List MBlock} (h : countSect l = 0) :
    nonSectBlocks l = l := by
  unfold countSect at h
  unfold nonSectBlocks
  induction l with
  | nil => rfl
  | cons b bs ih =>
    cases hb : b.isSect with
    | true => simp [List.filter_cons, hb] at h
    | false =>
      rw [List.filter_cons_of_neg (by simp [hb])] at h
      simp only [List.filter_cons, hb]
      rw [ih h]
      simp

theorem removeFirstSect_spec {l : List MBlock} (h : countSect l = 1) :
    removeFirstSect l = nonSectBlocks l ∧
      ∃ s, firstSect l = some s ∧ s.isSect = true := by
  induction l with
  | nil => simp [countSect, nonSectBlocks] at h
  | cons b bs ih =>
    cases hb : b.isSect with
    | true =>
      have hbs : countSect bs = 0 := by
        unfold countSect at h ⊢
        rw [List.filter_cons_of_pos (by simp [hb])] at h
        simpa using h
      refine ⟨?_, b, ?_, hb⟩
      · unfold removeFirstSect nonSectBlocks
        rw [List.filter_cons_of_neg (by simp [hb]), hb]
        simp only [if_true]
        exact (nonSect_of_countSect_zero hbs).symm
      · unfold firstSect
        rw [List.find?_cons_of_pos _ hb]
    | false =>
      have hbs : countSect bs = 1 := by
        unfold countSect at h ⊢
        rw [List.filter_cons_of_neg (by simp [hb])] at h
        exact h
      obtain ⟨h1, s, h2, h3⟩ := ih hbs
      refine ⟨?_, s, ?_, h3⟩
      · unfold removeFirstSect nonSectBlocks
        rw [hb]
        simp only [Bool.false_eq_true, if_false]
        rw [List.filter_cons_of_pos (by simp [hb])]
        unfold nonSectBlocks at h1
        rw [h1]
      · unfold firstSect
        rw [List.find?_cons_of_neg _ (by simp [hb])]
        exact h2

/-- C2: merging three valid sources `[A, B, C]` (where `A`'s body carries
exactly one section-properties child) yields the body: all of `A`'s
content blocks, a page break, all of `B`'s content blocks (their embed
references remapped), a page break, all of `C`'s content blocks (their
embed references remapped), and `A`'s section-properties node as the last
child, which is the body's only section-properties node. -/
theorem c2_theorem (A B C : MDoc) (hA : countSect A.blocks = 1) :
    ∃ sA m1 m2,
      firstSect A.blocks = some sA ∧ sA.isSect = true ∧
      (mergeDocs A [B, C]).blocks =
        nonSectBlocks A.blocks ++ [pageBreakBlock] ++
          (nonSectBlocks B.blocks).map (MBlock.updateRefs m1) ++ [pageBreakBlock] ++
          (nonSectBlocks C.blocks).map (MBlock.updateRefs m2) ++ [sA] ∧
      countSect (mergeDocs A [B, C]).blocks = 1 ∧
      (mergeDocs A [B, C]).blocks.getLast? = some sA := by
  obtain ⟨hrm, sA, hfs, hsect⟩ := removeFirstSect_spec hA
  have hfold : mergeFold (baseAccum A) 1 [B, C] =
      mergeStep 2 (mergeStep 1 (baseAccum A) B) C := rfl
  set acc1 := mergeStep 1 (baseAccum A) B with hacc1
  set m1 := (mergeMediaFiles 1
    { baseAccum A with blocks := (baseAccum A).blocks ++ [pageBreakBlock] } B).2 with hm1
  set m2 := (mergeMediaFiles 2
    { acc1 with blocks := acc1.blocks ++ [pageBreakBlock] } C).2 with hm2
  have hb1 : acc1.blocks = (baseAccum A).blocks ++ [pageBreakBlock] ++
      nonSectBlocks (B.blocks.map (MBlock.updateRefs m1)) := mergeStep_blocks 1 (baseAccum A) B
  have hb2 : (mergeStep 2 acc1 C).blocks = acc1.blocks ++ [pageBreakBlock] ++
      nonSectBlocks (C.blocks.map (MBlock.updateRefs m2)) := mergeStep_blocks 2 acc1 C
  have hbase : (baseAccum A).blocks = nonSectBlocks A.blocks := hrm
  have hblocks : (mergeDocs A [B, C]).blocks =
      nonSectBlocks A.blocks ++ [pageBreakBlock] ++
        (nonSectBlocks B.blocks).map (MBlock.updateRefs m1) ++ [pageBreakBlock] ++
        (nonSectBlocks C.blocks).map (MBlock.updateRefs m2) ++ [sA] := by
    show (mergeFold (baseAccum A) 1 [B, C]).blocks ++ _ = _
    rw [hfold, hb2, hb1, hbase, hfs]
    rw [nonSect_map_update, nonSect_map_update]
  refine ⟨sA, m1, m2, hfs, hsect, hblocks, ?_, ?_⟩
  · rw [hblocks]
    repeat rw [countSect_append]
    rw [countSect_nonSect]
    have h1 : countSect [pageBreakBlock] = 0 := rfl
    have h2 : countSect ((nonSectBlocks B.blocks).map (MBlock.updateRefs m1)) = 0 := by
      rw [countSect_map_update, countSect_nonSect]
    have h3 : countSect ((nonSectBlocks C.blocks).map (MBlock.updateRefs m2)) = 0 := by
      rw [countSect_map_update, countSect_nonSect]
    have h4 : countSect [sA] = 1 := by
      unfold countSect
      rw [List.filter_cons_of_pos (by simp [hsect])]
      rfl
    omega
  · rw [hblocks]
    exact List.getLast?_concat _

/-- Witness for C2 at three concrete packages. -/
theorem c2_witness :
    ∃ sA m1 m2,
      firstSect [MBlock.para [MRun.textR (strOf "a")], MBlock.sect 7] = some sA ∧
      sA.isSect = true ∧
      (mergeDocs { blocks := [MBlock.para [MRun.textR (strOf "a")], MBlock.sect 7] }
          [{ blocks := [MBlock.para [MRun.textR (strOf "b")]] },
           { blocks := [MBlock.para [MRun.textR (strOf "c")], MBlock.sect 9] }]).blocks =
        nonSectBlocks [MBlock.para [MRun.textR (strOf "a")], MBlock.sect 7] ++
          [pageBreakBlock] ++
          (nonSectBlocks [MBlock.para [MRun.textR (strOf "b")]]).map (MBlock.updateRefs m1) ++
          [pageBreakBlock] ++
          (nonSectBlocks [MBlock.para [MRun.textR (strOf "c")],
            MBlock.sect 9]).map (MBlock.updateRefs m2) ++ [sA] ∧
      countSect (mergeDocs { blocks := [MBlock.para [MRun.textR (strOf "a")], MBlock.sect 7] }
          [{ blocks := [MBlock.para [MRun.textR (strOf "b")]] },
           { blocks := [MBlock.para [MRun.textR (strOf "c")], MBlock.sect 9] }]).blocks = 1 ∧
      (mergeDocs { blocks := [MBlock.para [MRun.textR (strOf "a")], MBlock.sect 7] }
          [{ blocks := [MBlock.para [MRun.textR (strOf "b")]] },
           { blocks := [MBlock.para [MRun.textR (strOf "c")], MBlock.sect 9] }]).blocks.getLast? =
        some sA :=
  c2_theorem { blocks := [MBlock.para [MRun.textR (strOf "a")], MBlock.sect 7] }
    { blocks := [MBlock.para [MRun.textR (strOf "b")]] }
    { blocks := [MBlock.para [MRun.textR (strOf "c")], MBlock.sect 9] } (by decide)

/-! ### Claim C7 -/

theorem scriptRestLoop_ne_failNoValid (l : List InputFile) :
    ∀ br, scriptRestLoop br l ≠ MergeOutcome.failNoValid := by
  induction l with
  | nil => intro br h; exact MergeOutcome.noConfusion h
  | cons f fs ih =>
    intro br
    obtain ⟨od, de, zo, hd, pa, rs⟩ := f
    cases pa with
    | xmlError => exact ih br
    | noBody => exact ih br
    | okDoc d =>
      cases rs with
      | parseErr => exact fun h => MergeOutcome.noConfusion h
      | absent => exact ih br
      | okRels =>
        cases br with
        | badPart => exact fun h => MergeOutcome.noConfusion h
        | absent => exact ih _
        | okPart => exact ih _

theorem scriptRestLoop_ok (l : List InputFile) :
    ∀ br, br ≠ BaseRels.badPart →
      (∀ f ∈ l, f.relsStatus ≠ RelsStatus.parseErr) →
      scriptRestLoop br l = MergeOutcome.okDone := by
  induction l with
  | nil => intro br _ _; rfl
  | cons f fs ih =>
    intro br hbr hl
    have hrest : ∀ g ∈ fs, g.relsStatus ≠ RelsStatus.parseErr :=
      fun g hg => hl g (List.mem_cons_of_mem _ hg)
    have hf : f.relsStatus ≠ RelsStatus.parseErr := hl f (List.mem_cons_self _ _)
    obtain ⟨od, de, zo, hd, pa, rs⟩ := f
    cases pa with
    | xmlError => exact ih br hbr hrest
    | noBody => exact ih br hbr hrest
    | okDoc d =>
      cases rs with
      | parseErr => exact absurd rfl hf
      | absent => exact ih br hbr hrest
      | okRels =>
        cases br with
        | badPart => exact absurd rfl hbr
        | absent => exact ih BaseRels.absent (fun h => BaseRels.noConfusion h) hrest
        | okPart => exact ih BaseRels.okPart (fun h => BaseRels.noConfusion h) hrest

/-- C7 amended: the script merger fails before merging exactly when the
validation filter is empty (the no-valid-inputs failure when some paths
were supplied, the no-files failure when none were); invalid individual
inputs after the first valid one are skipped, so with a first valid input
whose document part parses (and no malformed rels part, which would raise)
the merge succeeds.  The class merger instead returns failure whenever
fewer than two paths are supplied, with no validation filter at all. -/
theorem c7_theorem (files : List InputFile) :
    (files.length < 2 → classMergeOutcome files = false) ∧
    (files = [] → scriptMergeOutcome files = MergeOutcome.failNoFiles) ∧
    (files ≠ [] →
      (scriptMergeOutcome files = MergeOutcome.failNoValid ↔ validFilter files = [])) ∧
    (∀ v0 rest d, validFilter files = v0 :: rest →
      v0.parse = ParseStatus.okDoc d →
      v0.relsStatus ≠ RelsStatus.parseErr →
      (∀ f ∈ rest, f.relsStatus ≠ RelsStatus.parseErr) →
      scriptMergeOutcome files = MergeOutcome.okDone) := by
  refine ⟨?_, ?_, ?_, ?_⟩
  · intro hlen
    unfold classMergeOutcome
    by_cases he : files.isEmpty
    · rw [if_pos he]
    · rw [if_neg he, if_pos hlen]
  · intro h
    subst h
    rfl
  · intro hne
    have he : files.isEmpty = false := by
      rw [List.isEmpty_eq_false]
      exact hne
    constructor
    · intro hout
      by_contra hvne
      obtain ⟨v0, rest, hv⟩ : ∃ v0 rest, validFilter files = v0 :: rest := by
        cases hvv : validFilter files with
        | nil => exact absurd hvv hvne
        | cons a b => exact ⟨a, b, rfl⟩
      have hneq : scriptMergeOutcome files ≠ MergeOutcome.failNoValid := by
        unfold scriptMergeOutcome
        rw [he]
        simp only [Bool.false_eq_true, if_false]
        rw [hv]
        obtain ⟨od, de, zo, hd, pa, rs⟩ := v0
        cases pa with
        | xmlError => exact fun h => MergeOutcome.noConfusion h
        | noBody => exact fun h => MergeOutcome.noConfusion h
        | okDoc d => exact scriptRestLoop_ne_failNoValid rest _
      exact hneq hout
    · intro hv
      unfold scriptMergeOutcome
      rw [he]
      simp only [Bool.false_eq_true, if_false]
      rw [hv]
  · intro v0 rest d hv hp hr hrest
    have hne : files ≠ [] := by
      intro h
      subst h
      simp [validFilter] at hv
    have he : files.isEmpty = false := by
      rw [List.isEmpty_eq_false]
      exact hne
    unfold scriptMergeOutcome
    rw [he]
    simp only [Bool.false_eq_true, if_false]
    rw [hv]
    obtain ⟨od, de, zo, hd, pa, rs⟩ := v0
    have hp2 : pa = ParseStatus.okDoc d := hp
    subst hp2
    have hr2 : rs ≠ RelsStatus.parseErr := hr
    apply scriptRestLoop_ok rest (toBaseRels rs) ?_ hrest
    cases rs with
    | parseErr => exact absurd rfl hr2
    | absent => exact fun h => BaseRels.noConfusion h
    | okRels => exact fun h => BaseRels.noConfusion h

/-- Witness for C7: each clause at a concrete input list. -/
theorem c7_witness :
    classMergeOutcome [goodInput] = false ∧
    scriptMergeOutcome [] = MergeOutcome.failNoFiles ∧
    (scriptMergeOutcome [badInput] = MergeOutcome.failNoValid ↔ validFilter [badInput] = []) ∧
    scriptMergeOutcome [goodInput, badInput] = MergeOutcome.okDone :=
  ⟨(c7_theorem [goodInput]).1 (by decide),
   (c7_theorem []).2.1 rfl,
   (c7_theorem [badInput]).2.2.1 (by decide),
   (c7_theorem [goodInput, badInput]).2.2.2 goodInput [] mdocEmpty (by decide) rfl
     (by decide) (by intro f hf; cases hf)⟩

/-- C7 counterexample: a single, fully valid input (so the filtered list
is non-empty) on which the class merger still fails, because it requires
at least two paths — contradicting the claim that a list with at least one
valid input succeeds. -/
theorem c7_counterexample :
    (validFilter [goodInput]).length = 1 ∧
    classMergeOutcome [goodInput] = false := by
  refine ⟨rfl, rfl⟩

/-! ### Claim C1: relationship-ID allocation lemmas -/

theorem foldl_max_ge_start (l : List Rel) : ∀ a : Nat,
    a ≤ l.foldl (fun m r => match parseRIdNum r.id with | some n => max m n | none => m) a := by
  induction l with
  | nil => intro a; exact le_refl a
  | cons r l ih =>
    intro a
    rw [List.foldl_cons]
    refine le_trans ?_ (ih _)
    cases hp : parseRIdNum r.id with
    | none => exact le_refl a
    | some n => exact le_max_left a n

theorem mem_le_foldl_max (l : List Rel) : ∀ (a : Nat) (r : Rel), r ∈ l →
    ∀ m, parseRIdNum r.id = some m →
      m ≤ l.foldl (fun m r => match parseRIdNum r.id with | some n => max m n | none => m) a := by
  induction l with
  | nil => intro a r hr; cases hr
  | cons r0 l ih =>
    intro a r hr m hm
    rw [List.foldl_cons]
    rcases List.mem_cons.mp hr with h | h
    · subst h
      rw [hm]
      exact le_trans (le_max_right a m) (foldl_max_ge_start l _)
    · exact ih _ r h m hm

/-- Every numeric `rIdN` in the table is bounded by `_get_max_relationship_id`. -/
theorem maxRelId_bound {rels : List Rel} {t : Str} (ht : t ∈ rels.map Rel.id)
    {m : Nat} (hm : parseRIdNum t = some m) : m ≤ maxRelId rels := by
  obtain ⟨r, hr, rfl⟩ := List.mem_map.mp ht
  exact mem_le_foldl_max rels 0 r hr m hm

/-- A freshly allocated `rId{n}` with `n` above the maximum is not among
the existing IDs. -/
theorem rIdStr_not_mem {rels : List Rel} {n : Nat} (hn : maxRelId rels < n) :
    rIdStr n ∉ rels.map Rel.id := by
  intro hmem
  have := maxRelId_bound hmem (parseRIdNum_rIdStr n)
  omega

/-! ### Dict lemmas -/

theorem lookup_dictInsert_self (d : List (Str × Str)) (k v : Str) :
    List.lookup k (dictInsert d k v) = some v := by
  unfold dictInsert
  by_cases h : (List.lookup k d).isSome
  · rw [if_pos h]
    induction d with
    | nil => simp [List.lookup] at h
    | cons p d' ih =>
      obtain ⟨a, b⟩ := p
      by_cases hak : a = k
      · subst hak
        simp only [List.map_cons, if_pos rfl]
        rw [List.lookup]
        simp
      · simp only [List.map_cons]
        rw [if_neg hak]
        rw [List.lookup] at h ⊢
        have hka : (k == a) = false := by
          rw [beq_eq_false_iff_ne]
          exact fun he => hak he.symm
        rw [hka] at h ⊢
        exact ih h
  · rw [if_neg h]
    induction d with
    | nil =>
      rw [List.nil_append, List.lookup]
      simp
    | cons p d' ih =>
      obtain ⟨a, b⟩ := p
      rw [List.cons_append, List.lookup]
      rw [List.lookup] at h
      cases hka : (k == a) with
      | true => rw [hka] at h; simp at h
      | false =>
        rw [hka] at h
        exact ih h

theorem lookup_dictInsert_ne (d : List (Str × Str)) (k v a : Str) (hne : a ≠ k) :
    List.lookup a (dictInsert d k v) = List.lookup a d := by
  unfold dictInsert
  by_cases h : (List.lookup k d).isSome
  · rw [if_pos h]
    clear h
    induction d with
    | nil => rfl
    | cons p d' ih =>
      obtain ⟨b, c⟩ := p
      simp only [List.map_cons]
      by_cases hbk : b = k
      · subst hbk
        rw [if_pos rfl]
        rw [List.lookup, List.lookup]
        have hab : (a == b) = false := by
          rw [beq_eq_false_iff_ne]
          exact hne
        rw [hab, ih]
      · rw [if_neg hbk]
        rw [List.lookup, List.lookup]
        cases hab : (a == b) with
        | true => rfl
        | false => rw [ih]
  · rw [if_neg h]
    induction d with
    | nil =>
      rw [List.nil_append, List.lookup, List.lookup]
      have hak2 : (a == k) = false := by
        rw [beq_eq_false_iff_ne]
        exact hne
      rw [hak2]
      rfl
    | cons p d' ih =>
      obtain ⟨b, c⟩ := p
      rw [List.cons_append, List.lookup, List.lookup]
      cases hab : (a == b) with
      | true => rfl
      | false =>
        apply ih
        rw [List.lookup] at h
        cases hkb : (k == b) with
        | true => rw [hkb] at h; simp at h
        | false => rw [hkb] at h; exact h

theorem lookup_isSome_dictInsert (d : List (Str × Str)) (k v a : Str)
    (h : (List.lookup a d).isSome) : (List.lookup a (dictInsert d k v)).isSome := by
  by_cases hak : a = k
  · subst hak
    rw [lookup_dictInsert_self]
    rfl
  · rw [lookup_dictInsert_ne d k v a hak]
    exact h

theorem mem_dictInsert {d : List (Str × Str)} {k v : Str} {kv : Str × Str}
    (h : kv ∈ dictInsert d k v) : kv = (k, v) ∨ kv ∈ d := by
  unfold dictInsert at h
  by_cases hs : (List.lookup k d).isSome
  · rw [if_pos hs] at h
    obtain ⟨p, hp, himg⟩ := List.mem_map.mp h
    by_cases hpk : p.1 = k
    · rw [if_pos hpk] at himg
      exact Or.inl himg.symm
    · rw [if_neg hpk] at himg
      exact Or.inr (himg ▸ hp)
  · rw [if_neg hs] at h
    rcases List.mem_append.mp h with h | h
    · exact Or.inr h
    · rcases List.mem_singleton.mp h with rfl
      exact Or.inl rfl

theorem mem_mediaAdd (l : List MediaName) (m : MediaName) : m ∈ mediaAdd l m := by
  unfold mediaAdd
  by_cases h : m ∈ l
  · rw [if_pos h]; exact h
  · rw [if_neg h]; exact List.mem_append_right _ (List.mem_singleton.mpr rfl)

theorem mediaAdd_mono {l : List MediaName} {x : MediaName} (m : MediaName) (h : x ∈ l) :
    x ∈ mediaAdd l m := by
  unfold mediaAdd
  by_cases hm : m ∈ l
  · rw [if_pos hm]; exact h
  · rw [if_neg hm]; exact List.mem_append_left _ h

/-- Master invariant of the `_merge_media_files` per-file loop: the
relationship list only grows by freshly numbered entries above the
starting maximum whose targets name copied media files; IDs stay distinct
and bounded by the running counter; the media store only grows; every
mapping value resolves; mapping keys are never lost; and after the loop
every media file's first matching relationship has a mapping entry. -/
theorem mergeMediaGo_spec (docIdx : Nat) (srcRels : List Rel) (ms : List MediaName) :
    ∀ (maxId startMax : Nat) (orig rels0 : List Rel) (media0 : List MediaName)
      (map0 : List (Str × Str)) (res : Nat × List Rel × List MediaName × List (Str × Str)),
      res = mergeMediaGo docIdx srcRels ms maxId rels0 media0 map0 →
      (rels0.map Rel.id).Nodup →
      (∀ t ∈ rels0.map Rel.id, ∀ mm, parseRIdNum t = some mm → mm ≤ maxId) →
      startMax ≤ maxId →
      (∃ added, rels0 = orig ++ added ∧
        ∀ r ∈ added, ∃ n, r.id = rIdStr n ∧ startMax < n ∧
          ∃ mn ∈ media0, r.target = strOf "media/" ++ mn.render) →
      (∀ kv ∈ map0, ∃ r ∈ rels0, r.id = kv.2 ∧
        ∃ mn ∈ media0, r.target = strOf "media/" ++ mn.render) →
      ((res.2.1.map Rel.id).Nodup ∧
        (∀ t ∈ res.2.1.map Rel.id, ∀ mm, parseRIdNum t = some mm → mm ≤ res.1) ∧
        (∃ added, res.2.1 = orig ++ added ∧
          ∀ r ∈ added, ∃ n, r.id = rIdStr n ∧ startMax < n ∧
            ∃ mn ∈ res.2.2.1, r.target = strOf "media/" ++ mn.render) ∧
        (∀ mn ∈ media0, mn ∈ res.2.2.1) ∧
        (∀ kv ∈ res.2.2.2, ∃ r ∈ res.2.1, r.id = kv.2 ∧
          ∃ mn ∈ res.2.2.1, r.target = strOf "media/" ++ mn.render) ∧
        (∀ a, (List.lookup a map0).isSome → (List.lookup a res.2.2.2).isSome) ∧
        (∀ mn ∈ ms, ∀ rel, relForMedia srcRels mn = some rel →
          (List.lookup rel.id res.2.2.2).isSome)) := by
  induction ms with
  | nil =>
    intro maxId startMax orig rels0 media0 map0 res hres hnd hbound hsm hadd hmap
    subst hres
    refine ⟨hnd, hbound, hadd, fun mn h => h, hmap, fun a h => h, ?_⟩
    intro mn hmn
    cases hmn
  | cons m ms ih =>
    intro maxId startMax orig rels0 media0 map0 res hres hnd hbound hsm hadd hmap
    rw [show mergeMediaGo docIdx srcRels (m :: ms) maxId rels0 media0 map0 =
        (match relForMedia srcRels m with
          | some rel =>
            mergeMediaGo docIdx srcRels ms (maxId + 1)
              (rels0 ++ [{ id := rIdStr (maxId + 1), relType := rel.relType,
                           target := strOf "media/" ++ (m.renamed docIdx).render }])
              (mediaAdd media0 (m.renamed docIdx)) (dictInsert map0 rel.id (rIdStr (maxId + 1)))
          | none =>
            mergeMediaGo docIdx srcRels ms maxId rels0 (mediaAdd media0 (m.renamed docIdx)) map0)
      from rfl] at hres
    cases hrel : relForMedia srcRels m with
    | none =>
      rw [hrel] at hres
      have hadd2 : ∃ added, rels0 = orig ++ added ∧
          ∀ r ∈ added, ∃ n, r.id = rIdStr n ∧ startMax < n ∧
            ∃ mn ∈ mediaAdd media0 (m.renamed docIdx),
              r.target = strOf "media/" ++ mn.render := by
        obtain ⟨added, he, hprop⟩ := hadd
        refine ⟨added, he, fun r hr => ?_⟩
        obtain ⟨n, h1, h2, mn, hmn, h3⟩ := hprop r hr
        exact ⟨n, h1, h2, mn, mediaAdd_mono _ hmn, h3⟩
      have hmap2 : ∀ kv ∈ map0, ∃ r ∈ rels0, r.id = kv.2 ∧
          ∃ mn ∈ mediaAdd media0 (m.renamed docIdx),
            r.target = strOf "media/" ++ mn.render := by
        intro kv hkv
        obtain ⟨r, hr, h1, mn, hmn, h2⟩ := hmap kv hkv
        exact ⟨r, hr, h1, mn, mediaAdd_mono _ hmn, h2⟩
      obtain ⟨g1, g2, g3, g4, g5, g6, g7⟩ :=
        ih maxId startMax orig rels0 (mediaAdd media0 (m.renamed docIdx)) map0 res hres
          hnd hbound hsm hadd2 hmap2
      refine ⟨g1, g2, g3, fun mn h => g4 mn (mediaAdd_mono _ h), g5, g6, ?_⟩
      intro mn hmn rel hfind
      rcases List.mem_cons.mp hmn with h | h
      · subst h
        rw [hrel] at hfind
        cases hfind
      · exact g7 mn h rel hfind
    | some rel =>
      rw [hrel] at hres
      set newRel : Rel := { id := rIdStr (maxId + 1), relType := rel.relType,
                            target := strOf "media/" ++ (m.renamed docIdx).render } with hnewRel
      have hnotmem : rIdStr (maxId + 1) ∉ rels0.map Rel.id := by
        intro hmem
        have := hbound _ hmem (maxId + 1) (parseRIdNum_rIdStr (maxId + 1))
        omega
      have hnd2 : ((rels0 ++ [newRel]).map Rel.id).Nodup := by
        rw [List.map_append]
        apply List.Nodup.append hnd (List.nodup_singleton _)
        intro t ht1 ht2
        rcases List.mem_singleton.mp ht2 with rfl
        exact hnotmem ht1
      have hbound2 : ∀ t ∈ (rels0 ++ [newRel]).map Rel.id, ∀ mm,
          parseRIdNum t = some mm → mm ≤ maxId + 1 := by
        intro t ht mm hmm
        rw [List.map_append] at ht
        rcases List.mem_append.mp ht with h | h
        · exact le_trans (hbound t h mm hmm) (Nat.le_succ _)
        · rcases List.mem_singleton.mp h with rfl
          have hid : newRel.id = rIdStr (maxId + 1) := rfl
          rw [hid, parseRIdNum_rIdStr] at hmm
          have := Option.some_inj.mp hmm
          omega
      have hadd2 : ∃ added, rels0 ++ [newRel] = orig ++ added ∧
          ∀ r ∈ added, ∃ n, r.id = rIdStr n ∧ startMax < n ∧
            ∃ mn ∈ mediaAdd media0 (m.renamed docIdx),
              r.target = strOf "media/" ++ mn.render := by
        obtain ⟨added, he, hprop⟩ := hadd
        refine ⟨added ++ [newRel], by rw [he, List.append_assoc], fun r hr => ?_⟩
        rcases List.mem_append.mp hr with h | h
        · obtain ⟨n, h1, h2, mn, hmn, h3⟩ := hprop r h
          exact ⟨n, h1, h2, mn, mediaAdd_mono _ hmn, h3⟩
        · rcases List.mem_singleton.mp h with rfl
          exact ⟨maxId + 1, rfl, by omega, m.renamed docIdx, mem_mediaAdd _ _, rfl⟩
      have hmap2 : ∀ kv ∈ dictInsert map0 rel.id (rIdStr (maxId + 1)),
          ∃ r ∈ rels0 ++ [newRel], r.id = kv.2 ∧
            ∃ mn ∈ mediaAdd media0 (m.renamed docIdx),
              r.target = strOf "media/" ++ mn.render := by
        intro kv hkv
        rcases mem_dictInsert hkv with rfl | hkv2
        · refine ⟨newRel, List.mem_append_right _ (List.mem_singleton.mpr rfl), rfl,
            m.renamed docIdx, mem_mediaAdd _ _, rfl⟩
        · obtain ⟨r, hr, h1, mn, hmn, h2⟩ := hmap kv hkv2
          exact ⟨r, List.mem_append_left _ hr, h1, mn, mediaAdd_mono _ hmn, h2⟩
      obtain ⟨g1, g2, g3, g4, g5, g6, g7⟩ :=
        ih (maxId + 1) startMax orig (rels0 ++ [newRel])
          (mediaAdd media0 (m.renamed docIdx))
          (dictInsert map0 rel.id (rIdStr (maxId + 1))) res hres
          hnd2 hbound2 (by omega) hadd2 hmap2
      refine ⟨g1, g2, g3, fun mn h => g4 mn (mediaAdd_mono _ h), g5, ?_, ?_⟩
      · intro a ha
        exact g6 a (lookup_isSome_dictInsert map0 rel.id (rIdStr (maxId + 1)) a ha)
      · intro mn hmn rel2 hfind
        rcases List.mem_cons.mp hmn with h | h
        · subst h
          rw [hrel] at hfind
          rcases Option.some_inj.mp hfind with rfl
          apply g6
          rw [lookup_dictInsert_self]
          rfl
        · exact g7 mn h rel2 hfind

/-! ### Reference-integrity lemmas -/

theorem refsOf_append (a b : List MBlock) : refsOf (a ++ b) = refsOf a ++ refsOf b := by
  unfold refsOf
  rw [List.flatMap_append]

theorem refs_updateRefs (mapping : List (Str × Str)) (b : MBlock) :
    (b.updateRefs mapping).refs = b.refs.map (applyMap mapping) := by
  cases b with
  | para runs =>
    simp only [MBlock.updateRefs, MBlock.refs]
    induction runs with
    | nil => rfl
    | cons r rs ih =>
      simp only [List.map_cons, List.flatMap_cons, List.map_append, ih]
      congr 1
      cases r <;> rfl
  | table p refs => rfl
  | sect p => rfl

theorem refsOf_map_update (mapping : List (Str × Str)) (blocks : List MBlock) :
    refsOf (blocks.map (MBlock.updateRefs mapping)) =
      (refsOf blocks).map (applyMap mapping) := by
  unfold refsOf
  induction blocks with
  | nil => rfl
  | cons b bs ih =>
    simp only [List.map_cons, List.flatMap_cons, List.map_append, ih, refs_updateRefs]

theorem refsOf_filter_subset (p : MBlock → Bool) (blocks : List MBlock) {rid : Str}
    (h : rid ∈ refsOf (blocks.filter p)) : rid ∈ refsOf blocks := by
  unfold refsOf at h ⊢
  obtain ⟨b, hb, hr⟩ := List.mem_flatMap.mp h
  exact List.mem_flatMap.mpr ⟨b, (List.mem_filter.mp hb).1, hr⟩

theorem mem_refsOf_copied {mp : List (Str × Str)} {blocks : List MBlock} {rid : Str}
    (h : rid ∈ refsOf (nonSectBlocks (blocks.map (MBlock.updateRefs mp)))) :
    ∃ rid0 ∈ refsOf blocks, rid = applyMap mp rid0 := by
  unfold nonSectBlocks at h
  have h2 := refsOf_filter_subset _ _ h
  rw [refsOf_map_update] at h2
  obtain ⟨rid0, h3, h4⟩ := List.mem_map.mp h2
  exact ⟨rid0, h3, h4.symm⟩

theorem relResolves_mono {rels rels' : List Rel} {media media' : List MediaName} {rid : Str}
    (h : relResolves rels media rid)
    (hr : ∀ r ∈ rels, r ∈ rels') (hm : ∀ m ∈ media, m ∈ media') :
    relResolves rels' media' rid := by
  obtain ⟨rel, h1, h2, mn, h3, h4⟩ := h
  exact ⟨rel, hr rel h1, h2, mn, hm mn h3, h4⟩

theorem refsOf_pageBreak : refsOf [pageBreakBlock] = [] := rfl

/-- With pairwise-distinct targets, the first relationship targeting
`media/{file}` is the one relationship with that target. -/
theorem relForMedia_of_target_nodup {srels : List Rel} {mn : MediaName} {rel : Rel}
    (hnd : (srels.map Rel.target).Nodup) (hmem : rel ∈ srels)
    (htgt : rel.target = strOf "media/" ++ mn.render) :
    relForMedia srels mn = some rel := by
  unfold relForMedia
  induction srels with
  | nil => cases hmem
  | cons r0 rs ih =>
    rcases List.mem_cons.mp hmem with rfl | hmem2
    · rw [List.find?_cons_of_pos]
      rw [htgt]
      exact beq_self_eq_true _
    · have hne : r0.target ≠ strOf "media/" ++ mn.render := by
        intro he
        rw [List.map_cons] at hnd
        have hmemtgt : rel.target ∈ rs.map Rel.target := List.mem_map.mpr ⟨rel, hmem2, rfl⟩
        rw [htgt, ← he] at hmemtgt
        exact (List.nodup_cons.mp hnd).1 hmemtgt
      rw [List.find?_cons_of_neg]
      · rw [List.map_cons] at hnd
        exact ih (List.nodup_cons.mp hnd).2 hmem2
      · intro hb
        exact hne (eq_of_beq hb)

theorem mergeMediaFiles_none (i : Nat) (acc : Accum) (src : MDoc)
    (h : src.media = none) : mergeMediaFiles i acc src = (acc, []) := by
  unfold mergeMediaFiles
  rw [h]

theorem mergeMediaFiles_noRels (i : Nat) (acc : Accum) (src : MDoc) (ms : List MediaName)
    (h1 : src.media = some ms) (h2 : src.rels = none) :
    mergeMediaFiles i acc src = (acc, []) := by
  unfold mergeMediaFiles
  rw [h1, h2]

theorem mergeMediaFiles_some (i : Nat) (acc : Accum) (src : MDoc) (ms : List MediaName)
    (srels : List Rel) (h1 : src.media = some ms) (h2 : src.rels = some srels) :
    mergeMediaFiles i acc src =
      ({ acc with
          rels := (mergeMediaGo i srels ms (maxRelId acc.rels) acc.rels acc.media []).2.1,
          media := (mergeMediaGo i srels ms (maxRelId acc.rels) acc.rels acc.media []).2.2.1 },
        (mergeMediaGo i srels ms (maxRelId acc.rels) acc.rels acc.media []).2.2.2) := by
  unfold mergeMediaFiles
  rw [h1, h2]

/-- One merge step preserves distinctness of relationship IDs and
referential integrity, only appends relationship entries, only adds media
files, and every appended entry is numbered strictly above the maximum
numeric ID the accumulator held before the step. -/
theorem mergeStep_spec (i : Nat) (acc : Accum) (src : MDoc)
    (hnd : (acc.rels.map Rel.id).Nodup)
    (href : refsOK acc.blocks acc.rels acc.media)
    (hsrc : srcOK src) :
    ((mergeStep i acc src).rels.map Rel.id).Nodup ∧
    refsOK (mergeStep i acc src).blocks (mergeStep i acc src).rels
      (mergeStep i acc src).media ∧
    (∃ added, (mergeStep i acc src).rels = acc.rels ++ added ∧
      ∀ r ∈ added, ∃ n, r.id = rIdStr n ∧ maxRelId acc.rels < n) := by
  obtain ⟨hsrcref, hsrctgt⟩ := hsrc
  have hstep : mergeStep i acc src =
      { (mergeMediaFiles i { acc with blocks := acc.blocks ++ [pageBreakBlock] } src).1 with
        blocks :=
          (mergeMediaFiles i { acc with blocks := acc.blocks ++ [pageBreakBlock] } src).1.blocks
            ++ nonSectBlocks (src.blocks.map (MBlock.updateRefs
              (mergeMediaFiles i { acc with blocks := acc.blocks ++ [pageBreakBlock] } src).2)) }
      := rfl
  cases hsm : src.media with
  | none =>
    rw [hstep, mergeMediaFiles_none i _ src hsm]
    have hvac : ∀ rid0, rid0 ∈ refsOf src.blocks → False := by
      intro rid0 h0
      obtain ⟨rel, hrel, -, mn, hmn, -⟩ := hsrcref rid0 h0
      rw [hsm] at hmn
      cases hmn
    refine ⟨hnd, ?_, [], by rw [List.append_nil], by intro r hr; cases hr⟩
    intro rid hrid
    rw [List.append_assoc] at hrid
    rw [refsOf_append] at hrid
    rcases List.mem_append.mp hrid with h | h
    · exact href rid h
    · rw [refsOf_append] at h
      rcases List.mem_append.mp h with h | h
      · rw [refsOf_pageBreak] at h
        cases h
      · obtain ⟨rid0, h0, -⟩ := mem_refsOf_copied h
        exact absurd h0 (fun h0 => hvac rid0 h0)
  | some ms =>
    cases hsr : src.rels with
    | none =>
      rw [hstep, mergeMediaFiles_noRels i _ src ms hsm hsr]
      have hvac : ∀ rid0, rid0 ∈ refsOf src.blocks → False := by
        intro rid0 h0
        obtain ⟨rel, hrel, -⟩ := hsrcref rid0 h0
        rw [hsr] at hrel
        cases hrel
      refine ⟨hnd, ?_, [], by rw [List.append_nil], by intro r hr; cases hr⟩
      intro rid hrid
      rw [List.append_assoc] at hrid
      rw [refsOf_append] at hrid
      rcases List.mem_append.mp hrid with h | h
      · exact href rid h
      · rw [refsOf_append] at h
        rcases List.mem_append.mp h with h | h
        · rw [refsOf_pageBreak] at h
          cases h
        · obtain ⟨rid0, h0, -⟩ := mem_refsOf_copied h
          exact absurd h0 (fun h0 => hvac rid0 h0)
    | some srels =>
      rw [hstep, mergeMediaFiles_some i _ src ms srels hsm hsr]
      obtain ⟨g1, g2, g3, g4, g5, g6, g7⟩ :=
        mergeMediaGo_spec i srels ms (maxRelId acc.rels) (maxRelId acc.rels)
          acc.rels acc.rels acc.media [] _ rfl hnd
          (fun t ht mm hmm => maxRelId_bound ht hmm)
          (le_refl _)
          ⟨[], by rw [List.append_nil], by intro r hr; cases hr⟩
          (by intro kv hkv; cases hkv)
      obtain ⟨added, haddeq, haddprop⟩ := g3
      refine ⟨g1, ?_, added, haddeq, ?_⟩
      · intro rid hrid
        rw [List.append_assoc] at hrid
        rw [refsOf_append] at hrid
        rcases List.mem_append.mp hrid with h | h
        · refine relResolves_mono (href rid h) ?_ g4
          intro r hr
          rw [haddeq]
          exact List.mem_append_left _ hr
        · rw [refsOf_append] at h
          rcases List.mem_append.mp h with h | h
          · rw [refsOf_pageBreak] at h
            cases h
          · obtain ⟨rid0, h0, heq⟩ := mem_refsOf_copied h
            obtain ⟨rel, hrel, hrelid, mn, hmn, htgt⟩ := hsrcref rid0 h0
            rw [hsr] at hrel
            rw [hsm] at hmn
            have hfind : relForMedia srels mn = some rel := by
              apply relForMedia_of_target_nodup ?_ hrel htgt
              rw [hsr] at hsrctgt
              exact hsrctgt
            have hlook := g7 mn hmn rel hfind
            obtain ⟨v, hv⟩ := Option.isSome_iff_exists.mp hlook
            have hkv := mem_of_lookup_eq_some hv
            obtain ⟨r2, hr2, hr2id, mn2, hmn2, htgt2⟩ := g5 (rel.id, v) hkv
            refine ⟨r2, hr2, ?_, mn2, hmn2, htgt2⟩
            rw [hr2id, heq]
            unfold applyMap
            rw [← hrelid, hv]
      · intro r hr
        obtain ⟨n, h1, h2, -⟩ := haddprop r hr
        exact ⟨n, h1, h2⟩

theorem mergeFold_take_succ (l : List MDoc) : ∀ (acc : Accum) (i k : Nat) (hk : k < l.length),
    mergeFold acc i (l.take (k + 1)) =
      mergeStep (i + k) (mergeFold acc i (l.take k)) (l.get ⟨k, hk⟩) := by
  induction l with
  | nil =>
    intro acc i k hk
    cases hk
  | cons x xs ih =>
    intro acc i k hk
    cases k with
    | zero => rfl
    | succ j =>
      have hj : j < xs.length := Nat.lt_of_succ_lt_succ hk
      have h1 : mergeFold acc i ((x :: xs).take (j + 1 + 1)) =
          mergeFold (mergeStep i acc x) (i + 1) (xs.take (j + 1)) := rfl
      rw [h1, ih (mergeStep i acc x) (i + 1) j hj]
      have h3 : i + 1 + j = i + (j + 1) := by omega
      rw [h3]
      rfl

/-- The fold invariant: after any prefix of the sources, relationship IDs
are pairwise distinct and every body reference resolves. -/
theorem mergeFold_inv (base : MDoc) (rest : List MDoc)
    (hids : ((base.rels.getD []).map Rel.id).Nodup)
    (hbase : refsOK (removeFirstSect base.blocks) (base.rels.getD []) (base.media.getD []))
    (hsrc : ∀ src ∈ rest, srcOK src) :
    ∀ k, k ≤ rest.length →
      ((accumAt base rest k).rels.map Rel.id).Nodup ∧
      refsOK (accumAt base rest k).blocks (accumAt base rest k).rels
        (accumAt base rest k).media := by
  intro k
  induction k with
  | zero => intro _; exact ⟨hids, hbase⟩
  | succ j ihj =>
    intro hk
    have hj : j < rest.length := hk
    obtain ⟨h1, h2⟩ := ihj (le_of_lt hj)
    have hstep := mergeStep_spec (1 + j) (accumAt base rest j) (rest.get ⟨j, hj⟩) h1 h2
      (hsrc _ (List.get_mem _ _ _))
    have htake := mergeFold_take_succ rest (baseAccum base) 1 j hj
    have hacc : accumAt base rest (j + 1) =
        mergeStep (1 + j) (accumAt base rest j) (rest.get ⟨j, hj⟩) := htake
    rw [hacc]
    exact ⟨hstep.1, hstep.2.1⟩

/-- C1: after a merge session over a well-formed base and well-formed
sources, the accumulator's relationship IDs are pairwise distinct; every
embed reference in the merged body resolves to a relationship entry whose
target names an existing media file; and every relationship ID newly
present after a source was copied is a fresh `rId{n}` strictly greater
than every numeric `rId` the accumulator held before that source. -/
theorem c1_theorem (base : MDoc) (rest : List MDoc)
    (hids : ((base.rels.getD []).map Rel.id).Nodup)
    (hbase : refsOK (removeFirstSect base.blocks) (base.rels.getD []) (base.media.getD []))
    (hsrc : ∀ src ∈ rest, srcOK src) :
    ((mergeDocs base rest).rels.map Rel.id).Nodup ∧
    refsOK (mergeDocs base rest).blocks (mergeDocs base rest).rels
      (mergeDocs base rest).media ∧
    (∀ k, k < rest.length →
      ∀ nid ∈ (accumAt base rest (k + 1)).rels.map Rel.id,
        nid ∉ (accumAt base rest k).rels.map Rel.id →
        ∃ n, nid = rIdStr n ∧
          ∀ t ∈ (accumAt base rest k).rels.map Rel.id,
            ∀ m, parseRIdNum t = some m → m < n) := by
  have hinv := mergeFold_inv base rest hids hbase hsrc
  obtain ⟨hN1, hN2⟩ := hinv rest.length (le_refl _)
  have haccN : accumAt base rest rest.length = mergeFold (baseAccum base) 1 rest := by
    unfold accumAt
    rw [List.take_length]
  have hrels : (mergeDocs base rest).rels = (mergeFold (baseAccum base) 1 rest).rels := rfl
  have hmedia : (mergeDocs base rest).media = (mergeFold (baseAccum base) 1 rest).media := rfl
  have hblocks : (mergeDocs base rest).blocks =
      (mergeFold (baseAccum base) 1 rest).blocks ++
        (match firstSect base.blocks with | some s => [s] | none => []) := rfl
  refine ⟨?_, ?_, ?_⟩
  · rw [hrels, ← haccN]
    exact hN1
  · unfold refsOK
    rw [hblocks, hrels, hmedia, ← haccN]
    intro rid hrid
    rw [refsOf_append] at hrid
    rcases List.mem_append.mp hrid with h | h
    · exact hN2 rid h
    · cases hfs : firstSect base.blocks with
      | none =>
        rw [hfs] at h
        cases h
      | some s =>
        rw [hfs] at h
        have hsect : s.isSect = true := by
          have := List.find?_some hfs
          exact this
        cases s with
        | sect p => cases h
        | para runs => cases hsect
        | table a b => cases hsect
  · intro k hk nid hmem hnot
    obtain ⟨hk1, hk2⟩ := hinv k (le_of_lt hk)
    obtain ⟨-, -, added, haddeq, haddprop⟩ :=
      mergeStep_spec (1 + k) (accumAt base rest k) (rest.get ⟨k, hk⟩) hk1 hk2
        (hsrc _ (List.get_mem _ _ _))
    have hacc1 : accumAt base rest (k + 1) =
        mergeStep (1 + k) (accumAt base rest k) (rest.get ⟨k, hk⟩) :=
      mergeFold_take_succ rest (baseAccum base) 1 k hk
    rw [hacc1, haddeq, List.map_append] at hmem
    rcases List.mem_append.mp hmem with h | h
    · exact absurd h hnot
    · obtain ⟨r, hr, rfl⟩ := List.mem_map.mp h
      obtain ⟨n, hn1, hn2⟩ := haddprop r hr
      refine ⟨n, hn1, ?_⟩
      intro t ht m hm
      have hb := maxRelId_bound ht hm
      omega

/-- Witness for C1: the merge of two concrete one-image packages. -/
theorem c1_witness :
    ((mergeDocs c1base [c1src]).rels.map Rel.id).Nodup ∧
    refsOK (mergeDocs c1base [c1src]).blocks (mergeDocs c1base [c1src]).rels
      (mergeDocs c1base [c1src]).media ∧
    (∀ k, k < [c1src].length →
      ∀ nid ∈ (accumAt c1base [c1src] (k + 1)).rels.map Rel.id,
        nid ∉ (accumAt c1base [c1src] k).rels.map Rel.id →
        ∃ n, nid = rIdStr n ∧
          ∀ t ∈ (accumAt c1base [c1src] k).rels.map Rel.id,
            ∀ m, parseRIdNum t = some m → m < n) :=
  c1_theorem c1base [c1src] (by decide)
    (by unfold refsOK relResolves; decide)
    (by unfold srcOK; decide)

end ReportGenX
